import Mathlib

/-!
Verification development for the response-cache module
(`src/shared/utils/cache_manager.py`) of the solana_bot gateway.

The Python values that flow through the cache (models, message lists,
parameter dicts, response payloads) are embedded as the inductive type
`PyObj`; the standard-library collaborators the module calls
(`json.dumps`, `json.loads`, `hashlib.md5`, the redis client) are
implemented executably below, faithful to their documented behaviour as
exercised by the module (default `json` separators, `ensure_ascii`
escaping, `sort_keys` ordering, md5 over the UTF-8 encoding).
-/

/-- A Python value as it can appear in a cache payload, a message list or a
parameter dict: `json`-representable scalars and containers, plus `obj`
standing for any Python object the `json` module cannot serialize
(a set, a custom class instance, ...). Dicts are insertion-ordered
association lists with string keys, as in CPython. -/
inductive PyObj : Type where
  | none : PyObj
  | bool (b : Bool) : PyObj
  | int (n : Int) : PyObj
  | str (s : String) : PyObj
  | list (xs : List PyObj) : PyObj
  | dict (kvs : List (String × PyObj)) : PyObj
  | obj (tag : String) : PyObj

/-- Lower-case hex digit, as Python's `json` emits in `\uXXXX` escapes. -/
def hexLower (n : Nat) : Char :=
  match n with
  | 0 => '0' | 1 => '1' | 2 => '2' | 3 => '3' | 4 => '4'
  | 5 => '5' | 6 => '6' | 7 => '7' | 8 => '8' | 9 => '9'
  | 10 => 'a' | 11 => 'b' | 12 => 'c' | 13 => 'd' | 14 => 'e'
  | _ => 'f'

/-- Decimal digits, most significant first, with a structural fuel (any
fuel above the value itself is enough). -/
def natCharsAux : Nat → Nat → List Char
  | 0, _ => []
  | fuel + 1, n =>
      if n < 10 then [hexLower n]
      else natCharsAux fuel (n / 10) ++ [hexLower (n % 10)]

/-- Decimal digits of a natural number, most significant first. -/
def natChars (n : Nat) : List Char := natCharsAux (n + 1) n

/-- Decimal rendering of a Python int, as `json.dumps` prints it. -/
def intChars (n : Int) : List Char :=
  if n < 0 then '-' :: natChars n.natAbs else natChars n.toNat

/-- The `\uXXXX` escape of a code unit below 0x10000. -/
def uEsc (n : Nat) : List Char :=
  ['\\', 'u', hexLower (n / 4096 % 16), hexLower (n / 256 % 16),
   hexLower (n / 16 % 16), hexLower (n % 16)]

/-- How `json.dumps` with its default `ensure_ascii=True` renders one
character inside a string literal: short escapes for the usual control
characters, `\uXXXX` for other controls and all non-ASCII, a UTF-16
surrogate pair for astral characters. -/
def escChar (c : Char) : List Char :=
  let n := c.toNat
  if c = '"' then ['\\', '"']
  else if c = '\\' then ['\\', '\\']
  else if n = 8 then ['\\', 'b']
  else if n = 9 then ['\\', 't']
  else if n = 10 then ['\\', 'n']
  else if n = 12 then ['\\', 'f']
  else if n = 13 then ['\\', 'r']
  else if n < 32 then uEsc n
  else if n < 127 then [c]
  else if n < 65536 then uEsc n
  else uEsc (55296 + (n - 65536) / 1024) ++ uEsc (56320 + (n - 65536) % 1024)

/-- Escape a whole character sequence. -/
def escChars : List Char → List Char
  | [] => []
  | c :: cs => escChar c ++ escChars cs

/-- Join pre-rendered items with the default `json.dumps` item separator
`", "`. -/
def joinComma : List (List Char) → List Char
  | [] => []
  | [p] => p
  | p :: ps => p ++ ',' :: ' ' :: joinComma ps

/-- Code-point comparison of character sequences: Python's `str`
ordering, which `sorted` applies to the keys. -/
def charsLE : List Char → List Char → Bool
  | [], _ => true
  | _ :: _, [] => false
  | a :: as, b :: bs =>
      if a.toNat < b.toNat then true
      else if b.toNat < a.toNat then false
      else charsLE as bs

theorem char_eq_of_toNat_eq {a b : Char} (h : a.toNat = b.toNat) : a = b := by
  have h2 := congrArg Char.ofNat h
  rwa [Char.ofNat_toNat, Char.ofNat_toNat] at h2

theorem charsLE_total (a : List Char) : ∀ b : List Char,
    charsLE a b = true ∨ charsLE b a = true := by
  induction a with
  | nil => intro b; left; rfl
  | cons x as ih =>
      intro b
      cases b with
      | nil => right; rfl
      | cons y bs =>
          by_cases h1 : x.toNat < y.toNat
          · left; simp [charsLE, h1]
          · by_cases h2 : y.toNat < x.toNat
            · right; simp [charsLE, h2]
            · rcases ih bs with h | h
              · left; simp [charsLE, h1, h2, h]
              · right; simp [charsLE, h1, h2, h]

theorem charsLE_trans (a : List Char) : ∀ b c : List Char,
    charsLE a b = true → charsLE b c = true → charsLE a c = true := by
  induction a with
  | nil => intro b c _ _; rfl
  | cons x as ih =>
      intro b c hab hbc
      cases b with
      | nil => simp [charsLE] at hab
      | cons y bs =>
          cases c with
          | nil => simp [charsLE] at hbc
          | cons z cs =>
              simp only [charsLE] at hab hbc ⊢
              by_cases h1 : x.toNat < y.toNat
              · by_cases h2 : y.toNat < z.toNat
                · simp [show x.toNat < z.toNat by omega]
                · by_cases h3 : z.toNat < y.toNat
                  · simp [h2, h3] at hbc
                  · simp [show x.toNat < z.toNat by omega]
              · by_cases h2 : y.toNat < x.toNat
                · simp [h1, h2] at hab
                · by_cases h3 : y.toNat < z.toNat
                  · simp [show x.toNat < z.toNat by omega]
                  · by_cases h4 : z.toNat < y.toNat
                    · simp [h3, h4] at hbc
                    · simp [h1, h2] at hab
                      simp [h3, h4] at hbc
                      simp [show ¬x.toNat < z.toNat by omega,
                            show ¬z.toNat < x.toNat by omega]
                      exact ih bs cs hab hbc

theorem charsLE_antisymm (a : List Char) : ∀ b : List Char,
    charsLE a b = true → charsLE b a = true → a = b := by
  induction a with
  | nil =>
      intro b _ hba
      cases b with
      | nil => rfl
      | cons y bs => simp [charsLE] at hba
  | cons x as ih =>
      intro b hab hba
      cases b with
      | nil => simp [charsLE] at hab
      | cons y bs =>
          simp only [charsLE] at hab hba
          by_cases h1 : x.toNat < y.toNat
          · have : ¬y.toNat < x.toNat := by omega
            simp [h1, this] at hba
          · by_cases h2 : y.toNat < x.toNat
            · simp [h1, h2] at hab
            · have hx : x = y := char_eq_of_toNat_eq (by omega)
              subst hx
              simp [h1, h2] at hab hba
              rw [ih bs hab hba]

/-- Comparison of dict entries by key, the order `sorted(d.items())`
uses under `sort_keys=True` (a CPython dict never repeats a key, so the
tuple comparison never goes past the key). -/
def keyLE (p q : String × PyObj) : Prop :=
  charsLE p.1.toList q.1.toList = true

instance : DecidableRel keyLE :=
  fun _ _ => inferInstanceAs (Decidable (_ = true))

instance : IsTotal (String × PyObj) keyLE :=
  ⟨fun p q => charsLE_total p.1.toList q.1.toList⟩

instance : IsTrans (String × PyObj) keyLE :=
  ⟨fun _ _ _ h h2 => charsLE_trans _ _ _ h h2⟩

/-- Sort an association list by key (stable, as Python's `sorted` is):
the reordering `sort_keys=True` applies to each dict before emitting
it. -/
def sortKV (l : List (String × PyObj)) : List (String × PyObj) :=
  List.insertionSort keyLE l

mutual

/-- Serializer of `json.dumps(v)` with default options (separators
`", "` and `": "`, `ensure_ascii=True`), in insertion order; fails
(Python: raises `TypeError`) on a value the `json` module cannot handle. -/
def ser : PyObj → Option (List Char)
  | PyObj.none => some ("null".toList)
  | PyObj.bool true => some ("true".toList)
  | PyObj.bool false => some ("false".toList)
  | PyObj.int n => some (intChars n)
  | PyObj.str s => some ('"' :: (escChars s.toList ++ ['"']))
  | PyObj.list xs =>
      match serList xs with
      | some parts => some ('\x5b' :: (joinComma parts ++ ['\x5d']))
      | Option.none => Option.none
  | PyObj.dict kvs =>
      match serKVs kvs with
      | some parts => some ('\x7b' :: (joinComma parts ++ ['\x7d']))
      | Option.none => Option.none
  | PyObj.obj _ => Option.none

/-- Serialize the elements of a list, failing if any element fails. -/
def serList : List PyObj → Option (List (List Char))
  | [] => some []
  | x :: xs =>
      match ser x, serList xs with
      | some p, some ps => some (p :: ps)
      | _, _ => Option.none

/-- Serialize the entries of a dict as `"key": value` items, in the order
given, failing if any value fails. -/
def serKVs : List (String × PyObj) → Option (List (List Char))
  | [] => some []
  | (k, v) :: kvs =>
      match ser v, serKVs kvs with
      | some p, some ps =>
          some ((('"' :: (escChars k.toList ++ ['"', ':', ' '])) ++ p) :: ps)
      | _, _ => Option.none

end

mutual

/-- Recursively sort every dict in a value by key: serializing the result
in insertion order is exactly serializing the original with
`sort_keys=True`. -/
def sortAll : PyObj → PyObj
  | PyObj.none => PyObj.none
  | PyObj.bool b => PyObj.bool b
  | PyObj.int n => PyObj.int n
  | PyObj.str s => PyObj.str s
  | PyObj.list xs => PyObj.list (sortAllList xs)
  | PyObj.dict kvs => PyObj.dict (sortKV (sortAllKVs kvs))
  | PyObj.obj t => PyObj.obj t

/-- `sortAll` mapped over a list of values. -/
def sortAllList : List PyObj → List PyObj
  | [] => []
  | x :: xs => sortAll x :: sortAllList xs

/-- `sortAll` mapped over the values of a dict, keeping insertion order. -/
def sortAllKVs : List (String × PyObj) → List (String × PyObj)
  | [] => []
  | (k, v) :: kvs => (k, sortAll v) :: sortAllKVs kvs

end

/-- Model of `json.dumps(v)` (`sortKeys = false`) and
`json.dumps(v, sort_keys=True)` (`sortKeys = true`): `None` when Python
would raise `TypeError` on a non-serializable input. -/
def json_dumps (sortKeys : Bool) (v : PyObj) : Option String :=
  match ser (if sortKeys then sortAll v else v) with
  | some cs => some (String.mk cs)
  | Option.none => Option.none

/-- UTF-8 encoding of one code point (the bytes `str.encode()` emits for
it). -/
def utf8Char (n : Nat) : List Nat :=
  if n < 128 then [n]
  else if n < 2048 then [192 + n / 64, 128 + n % 64]
  else if n < 65536 then [224 + n / 4096, 128 + n / 64 % 64, 128 + n % 64]
  else [240 + n / 262144, 128 + n / 4096 % 64, 128 + n / 64 % 64, 128 + n % 64]

/-- UTF-8 encoding of a string, as Python's `str.encode()` produces. -/
def utf8Bytes (s : String) : List Nat :=
  s.toList.foldr (fun c acc => utf8Char c.toNat ++ acc) []

/-- Arithmetic is over 32-bit words represented as naturals below `M32`. -/
def M32 : Nat := 4294967296

/-- 32-bit modular addition. -/
def add32 (a b : Nat) : Nat := (a + b) % M32

/-- 32-bit bitwise complement. -/
def not32 (x : Nat) : Nat := x ^^^ 4294967295

/-- 32-bit left rotation. -/
def rotl32 (x n : Nat) : Nat := ((x <<< n) % M32) ||| (x >>> (32 - n))

/-- The 64 md5 sine-derived constants (RFC 1321 table T). -/
def md5K : List Nat :=
  [0xd76aa478, 0xe8c7b756, 0x242070db, 0xc1bdceee,
   0xf57c0faf, 0x4787c62a, 0xa8304613, 0xfd469501,
   0x698098d8, 0x8b44f7af, 0xffff5bb1, 0x895cd7be,
   0x6b901122, 0xfd987193, 0xa679438e, 0x49b40821,
   0xf61e2562, 0xc040b340, 0x265e5a51, 0xe9b6c7aa,
   0xd62f105d, 0x02441453, 0xd8a1e681, 0xe7d3fbc8,
   0x21e1cde6, 0xc33707d6, 0xf4d50d87, 0x455a14ed,
   0xa9e3e905, 0xfcefa3f8, 0x676f02d9, 0x8d2a4c8a,
   0xfffa3942, 0x8771f681, 0x6d9d6122, 0xfde5380c,
   0xa4beea44, 0x4bdecfa9, 0xf6bb4b60, 0xbebfbc70,
   0x289b7ec6, 0xeaa127fa, 0xd4ef3085, 0x04881d05,
   0xd9d4d039, 0xe6db99e5, 0x1fa27cf8, 0xc4ac5665,
   0xf4292244, 0x432aff97, 0xab9423a7, 0xfc93a039,
   0x655b59c3, 0x8f0ccc92, 0xffeff47d, 0x85845dd1,
   0x6fa87e4f, 0xfe2ce6e0, 0xa3014314, 0x4e0811a1,
   0xf7537e82, 0xbd3af235, 0x2ad7d2bb, 0xeb86d391]

/-- The md5 per-round left-rotation amounts. -/
def md5S : List Nat :=
  [7, 12, 17, 22, 7, 12, 17, 22, 7, 12, 17, 22, 7, 12, 17, 22,
   5, 9, 14, 20, 5, 9, 14, 20, 5, 9, 14, 20, 5, 9, 14, 20,
   4, 11, 16, 23, 4, 11, 16, 23, 4, 11, 16, 23, 4, 11, 16, 23,
   6, 10, 15, 21, 6, 10, 15, 21, 6, 10, 15, 21, 6, 10, 15, 21]

/-- The md5 round function for operation index `i`. -/
def md5F (i b c d : Nat) : Nat :=
  if i < 16 then (b &&& c) ||| (not32 b &&& d)
  else if i < 32 then (d &&& b) ||| (not32 d &&& c)
  else if i < 48 then b ^^^ c ^^^ d
  else c ^^^ (b ||| not32 d)

/-- The md5 message-word index for operation index `i`. -/
def md5G (i : Nat) : Nat :=
  if i < 16 then i
  else if i < 32 then (5 * i + 1) % 16
  else if i < 48 then (3 * i + 5) % 16
  else (7 * i) % 16

/-- Little-endian 32-bit word `j` of a 64-byte block. -/
def md5Word (block : List Nat) (j : Nat) : Nat :=
  block.getD (4 * j) 0 + 256 * block.getD (4 * j + 1) 0 +
    65536 * block.getD (4 * j + 2) 0 + 16777216 * block.getD (4 * j + 3) 0

/-- One of the 64 md5 operations on the running state. -/
def md5Step (block : List Nat) (st : Nat × Nat × Nat × Nat) (i : Nat) :
    Nat × Nat × Nat × Nat :=
  let (a, b, c, d) := st
  let f := add32 (add32 (add32 a (md5F i b c d)) (md5K.getD i 0))
    (md5Word block (md5G i))
  (d, add32 b (rotl32 f (md5S.getD i 0)), b, c)

/-- Compress one 64-byte block into the state. -/
def md5Block (st : Nat × Nat × Nat × Nat) (block : List Nat) :
    Nat × Nat × Nat × Nat :=
  let (a, b, c, d) := (List.range 64).foldl (md5Step block) st
  (add32 st.1 a, add32 st.2.1 b, add32 st.2.2.1 c, add32 st.2.2.2 d)

/-- Md5 padding: append `0x80`, zeros to 56 mod 64, then the bit length
as a 64-bit little-endian quantity. -/
def md5Pad (msg : List Nat) : List Nat :=
  let L := msg.length
  let bits := (8 * L) % 18446744073709551616
  msg ++ 128 :: (List.replicate ((119 - L % 64) % 64) 0 ++
    (List.range 8).map (fun i => (bits >>> (8 * i)) % 256))

/-- Split a byte list into 64-byte chunks (structural fuel: the length
bounds the number of chunks). -/
def chunks64Aux : Nat → List Nat → List (List Nat)
  | 0, _ => []
  | _ + 1, [] => []
  | fuel + 1, b :: rest =>
      (b :: rest).take 64 :: chunks64Aux fuel ((b :: rest).drop 64)

/-- Split a byte list into 64-byte chunks. -/
def chunks64 (l : List Nat) : List (List Nat) := chunks64Aux l.length l

/-- The four bytes of a 32-bit word, little-endian. -/
def le32 (x : Nat) : List Nat :=
  [x % 256, x / 256 % 256, x / 65536 % 256, x / 16777216 % 256]

/-- The md5 digest (16 bytes) of a byte sequence. -/
def md5Bytes (msg : List Nat) : List Nat :=
  let st := (chunks64 (md5Pad msg)).foldl md5Block
    (1732584193, 4023233417, 2562383102, 271733878)
  le32 st.1 ++ le32 st.2.1 ++ le32 st.2.2.1 ++ le32 st.2.2.2

/-- Lower-case hex rendering of a byte list. -/
def hexOfBytes : List Nat → List Char
  | [] => []
  | b :: bs => hexLower (b / 16) :: hexLower (b % 16) :: hexOfBytes bs

/-- Model of `hashlib.md5(s.encode()).hexdigest()`. -/
def md5_hexdigest (s : String) : String :=
  String.mk (hexOfBytes (md5Bytes (utf8Bytes s)))

/-- Embedding of `CacheManager.generate_cache_key` (cache_manager.py,
lines 42-63): build the dict of model, messages and params, serialize it
with `json.dumps(..., sort_keys=True)` and return the md5 hexdigest.
`None` models the `TypeError` Python propagates to the caller when the
inputs are not JSON-serializable. -/
def generate_cache_key (model : String) (messages : List PyObj)
    (params : List (String × PyObj)) : Option String :=
  let cache_dict := PyObj.dict
    [("model", PyObj.str model), ("messages", PyObj.list messages),
     ("params", PyObj.dict params)]
  match json_dumps true cache_dict with
  | some cache_str => some (md5_hexdigest cache_str)
  | Option.none => Option.none

mutual

/-- Whether the `json` module can serialize a value: everything except an
`obj` somewhere inside. -/
def serializable : PyObj → Bool
  | PyObj.none => true
  | PyObj.bool _ => true
  | PyObj.int _ => true
  | PyObj.str _ => true
  | PyObj.list xs => serializableList xs
  | PyObj.dict kvs => serializableKVs kvs
  | PyObj.obj _ => false

/-- All elements serializable. -/
def serializableList : List PyObj → Bool
  | [] => true
  | x :: xs => serializable x && serializableList xs

/-- All dict values serializable. -/
def serializableKVs : List (String × PyObj) → Bool
  | [] => true
  | (_, v) :: kvs => serializable v && serializableKVs kvs

end

/-- No string occurs twice (the keys of a CPython dict are distinct). -/
def nodupStr : List String → Bool
  | [] => true
  | k :: ks => !(ks.contains k) && nodupStr ks

mutual

/-- A value that is the image of a real serializable Python value: no
`obj` inside, and every dict has distinct keys (CPython dicts cannot
repeat a key). -/
def pywf : PyObj → Bool
  | PyObj.none => true
  | PyObj.bool _ => true
  | PyObj.int _ => true
  | PyObj.str _ => true
  | PyObj.list xs => pywfList xs
  | PyObj.dict kvs => nodupStr (kvs.map Prod.fst) && pywfKVs kvs
  | PyObj.obj _ => false

/-- All elements well-formed. -/
def pywfList : List PyObj → Bool
  | [] => true
  | x :: xs => pywf x && pywfList xs

/-- All dict values well-formed. -/
def pywfKVs : List (String × PyObj) → Bool
  | [] => true
  | (_, v) :: kvs => pywf v && pywfKVs kvs

end

/-- Lookup in a string-keyed association list: `d[k]` / `k in d` on a
CPython dict (also the key-value view of a redis database). -/
def alistGet {α : Type} : List (String × α) → String → Option α
  | [], _ => Option.none
  | (k, v) :: rest, key => if k = key then some v else alistGet rest key

/-- `d[key] = v` on a CPython dict: replace in place if the key exists
(keeping its position), else append. Also models a redis `SET`. -/
def alistSet {α : Type} : List (String × α) → String → α → List (String × α)
  | [], key, v => [(key, v)]
  | (k, w) :: rest, key, v =>
      if k = key then (k, v) :: rest else (k, w) :: alistSet rest key v

/-- `del d[key]` on a CPython dict / redis `DEL`: drop the entry if
present. -/
def alistDel {α : Type} : List (String × α) → String → List (String × α)
  | [], _ => []
  | (k, w) :: rest, key =>
      if k = key then rest else (k, w) :: alistDel rest key

/-- JSON insignificant whitespace. -/
def wsChar (c : Char) : Bool := c = ' ' || c = '\t' || c = '\n' || c = '\r'

/-- Drop leading whitespace. -/
def skipWS : List Char → List Char
  | [] => []
  | c :: cs => if wsChar c then skipWS cs else c :: cs

/-- Decimal digit test. -/
def isDigit (c : Char) : Bool := 48 ≤ c.toNat && c.toNat ≤ 57

/-- Consume a maximal run of decimal digits, accumulating their value. -/
def parseDigits : List Char → Nat → Nat × List Char
  | [], acc => (acc, [])
  | c :: cs, acc =>
      if isDigit c then parseDigits cs (acc * 10 + (c.toNat - 48))
      else (acc, c :: cs)

/-- Value of a hex digit character. -/
def hexVal (c : Char) : Option Nat :=
  if 48 ≤ c.toNat && c.toNat ≤ 57 then some (c.toNat - 48)
  else if 97 ≤ c.toNat && c.toNat ≤ 102 then some (c.toNat - 87)
  else if 65 ≤ c.toNat && c.toNat ≤ 70 then some (c.toNat - 55)
  else Option.none

/-- Read four hex digits as one number. -/
def hex4 : List Char → Option (Nat × List Char)
  | c1 :: c2 :: c3 :: c4 :: rest =>
      match hexVal c1, hexVal c2, hexVal c3, hexVal c4 with
      | some a, some b, some c, some d =>
          some (4096 * a + 256 * b + 16 * c + d, rest)
      | _, _, _, _ => Option.none
  | _ => Option.none

/-- The character named by a short escape after a backslash. -/
def escShort (c : Char) : Option Char :=
  if c = '"' then some '"'
  else if c = '\\' then some '\\'
  else if c = '/' then some '/'
  else if c = 'b' then some (Char.ofNat 8)
  else if c = 'f' then some (Char.ofNat 12)
  else if c = 'n' then some '\n'
  else if c = 'r' then some '\r'
  else if c = 't' then some '\t'
  else Option.none

/-- Prefix one decoded character onto the result of parsing the rest of
a string body. -/
def consRes (c : Char) :
    Option (List Char × List Char) → Option (List Char × List Char)
  | some (t, rem) => some (c :: t, rem)
  | Option.none => Option.none

/-- Decode one escape sequence (the part after the backslash): a short
escape or `\uXXXX`, with a pair of surrogates recombined into one code
point (a lone surrogate is rejected: it has no scalar-value image).
Returns the decoded character and the remaining input. -/
def parseEsc : List Char → Option (Char × List Char)
  | [] => Option.none
  | e :: cs2 =>
      if e = 'u' then
        match hex4 cs2 with
        | some (n, cs3) =>
            if 55296 ≤ n ∧ n ≤ 56319 then
              match cs3 with
              | '\\' :: 'u' :: cs4 =>
                  match hex4 cs4 with
                  | some (m, cs5) =>
                      if 56320 ≤ m ∧ m ≤ 57343 then
                        some (Char.ofNat
                          (65536 + (n - 55296) * 1024 + (m - 56320)), cs5)
                      else Option.none
                  | Option.none => Option.none
              | _ => Option.none
            else if 56320 ≤ n ∧ n ≤ 57343 then Option.none
            else some (Char.ofNat n, cs3)
        | Option.none => Option.none
      else
        match escShort e with
        | some ch => some (ch, cs2)
        | Option.none => Option.none

/-- Read the body of a JSON string literal up to its closing quote,
undoing escapes. -/
def parseStrChars : Nat → List Char → Option (List Char × List Char)
  | 0, _ => Option.none
  | _ + 1, [] => Option.none
  | fuel + 1, c :: cs =>
      if c = '"' then some ([], cs)
      else if c = '\\' then
        match parseEsc cs with
        | some (ch, cs2) => consRes ch (parseStrChars fuel cs2)
        | Option.none => Option.none
      else consRes c (parseStrChars fuel cs)

mutual

/-- Recursive-descent JSON value parser (the decoding `json.loads`
performs), with a fuel argument bounding the nesting the input can ask
for. -/
def parseVal : Nat → List Char → Option (PyObj × List Char)
  | 0, _ => Option.none
  | Nat.succ fuel, cs =>
      match skipWS cs with
      | [] => Option.none
      | c :: rest =>
          if c = 'n' then
            match rest with
            | 'u' :: 'l' :: 'l' :: rem => some (PyObj.none, rem)
            | _ => Option.none
          else if c = 't' then
            match rest with
            | 'r' :: 'u' :: 'e' :: rem => some (PyObj.bool true, rem)
            | _ => Option.none
          else if c = 'f' then
            match rest with
            | 'a' :: 'l' :: 's' :: 'e' :: rem => some (PyObj.bool false, rem)
            | _ => Option.none
          else if c = '"' then
            match parseStrChars (rest.length + 1) rest with
            | some (chars, rem) => some (PyObj.str (String.mk chars), rem)
            | Option.none => Option.none
          else if c = '\x5b' then
            match skipWS rest with
            | [] => Option.none
            | c2 :: rest2 =>
                if c2 = '\x5d' then some (PyObj.list [], rest2)
                else
                  match parseElems fuel (c2 :: rest2) with
                  | some (xs, rem) => some (PyObj.list xs, rem)
                  | Option.none => Option.none
          else if c = '\x7b' then
            match skipWS rest with
            | [] => Option.none
            | c2 :: rest2 =>
                if c2 = '\x7d' then some (PyObj.dict [], rest2)
                else
                  match parseMembers fuel [] (c2 :: rest2) with
                  | some (kvs, rem) => some (PyObj.dict kvs, rem)
                  | Option.none => Option.none
          else if c = '-' then
            match rest with
            | d :: ds =>
                if isDigit d then
                  match parseDigits (d :: ds) 0 with
                  | (n, rem) => some (PyObj.int (-(n : Int)), rem)
                else Option.none
            | [] => Option.none
          else if isDigit c then
            match parseDigits (c :: rest) 0 with
            | (n, rem) => some (PyObj.int (n : Int), rem)
          else Option.none

/-- Parse the non-empty element list of a JSON array together with its
closing bracket. -/
def parseElems : Nat → List Char → Option (List PyObj × List Char)
  | 0, _ => Option.none
  | Nat.succ fuel, cs =>
      match parseVal fuel cs with
      | some (v, rem) =>
          match skipWS rem with
          | '\x5d' :: rem2 => some ([v], rem2)
          | ',' :: rem2 =>
              match parseElems fuel rem2 with
              | some (vs, rem3) => some (v :: vs, rem3)
              | Option.none => Option.none
          | _ => Option.none
      | Option.none => Option.none

/-- Parse the non-empty member list of a JSON object together with its
closing brace, building the dict exactly as CPython does: repeated
`d[k] = v` assignments (a repeated key keeps its first position and the
last value). -/
def parseMembers (fuel : Nat) (acc : List (String × PyObj)) (cs : List Char) :
    Option (List (String × PyObj) × List Char) :=
  match fuel with
  | 0 => Option.none
  | Nat.succ fuel =>
      match skipWS cs with
      | '"' :: rest =>
          match parseStrChars (rest.length + 1) rest with
          | some (kchars, rem) =>
              match skipWS rem with
              | ':' :: rem2 =>
                  match parseVal fuel rem2 with
                  | some (v, rem3) =>
                      let acc2 := alistSet acc (String.mk kchars) v
                      match skipWS rem3 with
                      | '\x7d' :: rem4 => some (acc2, rem4)
                      | ',' :: rem4 => parseMembers fuel acc2 rem4
                      | _ => Option.none
                  | Option.none => Option.none
              | _ => Option.none
          | Option.none => Option.none
      | _ => Option.none

end

/-- Model of `json.loads(s)`: `None` when Python would raise
(`json.JSONDecodeError` on malformed input, and a string Lean cannot
even represent -- a lone surrogate -- is likewise rejected). -/
def json_loads (s : String) : Option PyObj :=
  match parseVal (s.length + 1) s.toList with
  | some (v, rem) => if skipWS rem = [] then some v else Option.none
  | Option.none => Option.none

/-- The state of a `CacheManager` instance together with the backend it
talks to. `redis_store` is the key space of the external redis database
(value text plus the expiry seconds it was set with); `memory_cache` is
the in-process fallback dict. Exactly one of them is in use, chosen by
`use_redis` at construction. -/
structure CacheManager where
  use_redis : Bool
  cache_enabled : Bool
  cache_ttl : Nat
  redis_store : List (String × (String × Nat))
  memory_cache : List (String × PyObj)

/-- Python's `str.lower` as used on the `ENABLE_CACHE` flag (ASCII
case folding suffices for the flag text compared against `'true'`). -/
def strLower (s : String) : String :=
  String.mk (s.data.map Char.toLower)

/-- Embedding of `CacheManager.__init__` (cache_manager.py, lines 18-40).
The environment is passed explicitly: `use_redis` is the constructor
argument, `redis_url_set` whether `REDIS_URL` is set, `enable_cache` the
raw `ENABLE_CACHE` text (default `"true"`), `ttl` the parsed
`CACHE_TTL`. `redisConnectOk = false` is the branch in which
`redis.from_url` raises and the except clause falls back to the
in-memory dict. `redis0` is whatever the external redis database holds
when the connection is made. -/
def cacheInit (use_redis : Bool) (redis_url_set : Bool)
    (enable_cache : Option String) (ttl : Nat) (redisConnectOk : Bool)
    (redis0 : List (String × (String × Nat))) : CacheManager :=
  let ur := use_redis && redis_url_set
  let enabled := strLower (enable_cache.getD "true") == "true"
  if ur then
    if redisConnectOk then ⟨true, enabled, ttl, redis0, []⟩
    else ⟨false, enabled, ttl, redis0, []⟩
  else ⟨false, enabled, ttl, redis0, []⟩

/-- Embedding of `CacheManager.get_from_cache` (lines 65-89). `netOk =
false` is the run in which the `redis_client.get` call raises (connection
refused, timeout); the surrounding except clause turns any such failure,
and any `json.loads` failure on the stored text, into the final `return
None`. The returned `PyObj.none` is literally Python's `None`, which is
also what a miss returns. The local branch reads the dict and cannot
fail. -/
def get_from_cache (cm : CacheManager) (netOk : Bool) (key : String) :
    PyObj :=
  if !cm.cache_enabled then PyObj.none
  else if cm.use_redis then
    if netOk then
      match alistGet cm.redis_store key with
      | some sv =>
          if sv.1 ≠ "" then
            match json_loads sv.1 with
            | some v => v
            | Option.none => PyObj.none
          else PyObj.none
      | Option.none => PyObj.none
    else PyObj.none
  else
    match alistGet cm.memory_cache key with
    | some v => v
    | Option.none => PyObj.none

/-- Embedding of `CacheManager.save_to_cache` (lines 91-117). On the
redis branch `json.dumps(data)` runs first (its `TypeError` on a
non-serializable payload is caught, returning false), then `setex`
stores the text with the configured TTL; `netOk = false` is a raised
network error, likewise caught. The local branch stores the object
itself in the dict, with no serialization, and returns true. -/
def save_to_cache (cm : CacheManager) (netOk : Bool) (key : String)
    (data : PyObj) : Bool × CacheManager :=
  if !cm.cache_enabled then (false, cm)
  else if cm.use_redis then
    match json_dumps false data with
    | some s =>
        if netOk then
          (true, ⟨cm.use_redis, cm.cache_enabled, cm.cache_ttl,
            alistSet cm.redis_store key (s, cm.cache_ttl),
            cm.memory_cache⟩)
        else (false, cm)
    | Option.none => (false, cm)
  else
    (true, ⟨cm.use_redis, cm.cache_enabled, cm.cache_ttl, cm.redis_store,
      alistSet cm.memory_cache key data⟩)

/-- Embedding of `CacheManager.invalidate_cache` (lines 119-149). With no
key: `flushdb` on redis (the whole database), `{}` locally. With a key:
`delete` on redis, conditional `del` locally. `netOk = false` is a
raised redis error, caught and turned into `return False`. -/
def invalidate_cache (cm : CacheManager) (netOk : Bool)
    (key : Option String) : Bool × CacheManager :=
  if !cm.cache_enabled then (false, cm)
  else
    match key with
    | Option.none =>
        if cm.use_redis then
          if netOk then
            (true, ⟨cm.use_redis, cm.cache_enabled, cm.cache_ttl, [],
              cm.memory_cache⟩)
          else (false, cm)
        else
          (true, ⟨cm.use_redis, cm.cache_enabled, cm.cache_ttl,
            cm.redis_store, []⟩)
    | some k =>
        if cm.use_redis then
          if netOk then
            (true, ⟨cm.use_redis, cm.cache_enabled, cm.cache_ttl,
              alistDel cm.redis_store k, cm.memory_cache⟩)
          else (false, cm)
        else
          (true, ⟨cm.use_redis, cm.cache_enabled, cm.cache_ttl,
            cm.redis_store, alistDel cm.memory_cache k⟩)

/-- The record `CacheManager.get_cache_stats` (lines 151-178) returns
(the fields every branch populates; the redis-only info strings are not
modelled). -/
structure CacheStats where
  cache_enabled : Bool
  cache_type : String
  cache_ttl : Nat
  total_keys : Nat

/-- Embedding of `CacheManager.get_cache_stats`: base stats plus
best-effort backend introspection; a failing redis `info()` call
(`netOk = false`) is caught and only logged, leaving the base stats.
The function only reads state. -/
def get_cache_stats (cm : CacheManager) (netOk : Bool) : CacheStats :=
  if cm.use_redis then
    if netOk then ⟨cm.cache_enabled, "redis", cm.cache_ttl, cm.redis_store.length⟩
    else ⟨cm.cache_enabled, "redis", cm.cache_ttl, 0⟩
  else ⟨cm.cache_enabled, "memory", cm.cache_ttl, cm.memory_cache.length⟩

/-- One interleaved call against the cache, for stating frame/persistence
properties over operation sequences. -/
inductive CacheOp : Type where
  | opGet (netOk : Bool) (key : String) : CacheOp
  | opSave (netOk : Bool) (key : String) (data : PyObj) : CacheOp
  | opStats (netOk : Bool) : CacheOp

/-- The state effect of one call: `get_from_cache` and `get_cache_stats`
only read (their embeddings return data and no state), `save_to_cache`
threads its updated state. -/
def applyOp (cm : CacheManager) : CacheOp → CacheManager
  | CacheOp.opGet _ _ => cm
  | CacheOp.opSave netOk k v => (save_to_cache cm netOk k v).2
  | CacheOp.opStats _ => cm

/-- Run a sequence of interleaved calls. -/
def applyOps (cm : CacheManager) : List CacheOp → CacheManager
  | [] => cm
  | op :: ops => applyOps (applyOp cm op) ops

/-- An operation that is not a save to the key `k`. -/
def avoidsKey (k : String) : CacheOp → Prop
  | CacheOp.opSave _ key _ => key ≠ k
  | _ => True

/-! ### Association-list facts -/

theorem alistGet_set_self {α : Type} (l : List (String × α)) (k : String)
    (v : α) : alistGet (alistSet l k v) k = some v := by
  induction l with
  | nil => simp [alistSet, alistGet]
  | cons p rest ih =>
      obtain ⟨k1, w⟩ := p
      by_cases h : k1 = k
      · simp [alistSet, alistGet, h]
      · simp [alistSet, alistGet, h, ih]

theorem alistGet_set_ne {α : Type} (l : List (String × α)) (k k2 : String)
    (v : α) (h : k ≠ k2) :
    alistGet (alistSet l k v) k2 = alistGet l k2 := by
  induction l with
  | nil => simp [alistSet, alistGet, h]
  | cons p rest ih =>
      obtain ⟨k1, w⟩ := p
      by_cases h1 : k1 = k
      · subst h1
        simp [alistSet, alistGet, h]
      · simp [alistSet, alistGet, h1, ih]

theorem alistGet_del_ne {α : Type} (l : List (String × α)) (k k2 : String)
    (h : k ≠ k2) : alistGet (alistDel l k) k2 = alistGet l k2 := by
  induction l with
  | nil => simp [alistDel]
  | cons p rest ih =>
      obtain ⟨k1, w⟩ := p
      by_cases h1 : k1 = k
      · subst h1
        simp [alistDel, alistGet, h]
      · simp [alistDel, alistGet, h1, ih]

theorem alistGet_eq_none {α : Type} (l : List (String × α)) (k : String)
    (h : k ∉ l.map Prod.fst) : alistGet l k = Option.none := by
  induction l with
  | nil => simp [alistGet]
  | cons p rest ih =>
      obtain ⟨k1, w⟩ := p
      simp only [List.map_cons, List.mem_cons] at h
      push_neg at h
      simp [alistGet, Ne.symm h.1, ih h.2]

theorem alistGet_del_self {α : Type} (l : List (String × α)) (k : String)
    (h : (l.map Prod.fst).Nodup) :
    alistGet (alistDel l k) k = Option.none := by
  induction l with
  | nil => simp [alistDel, alistGet]
  | cons p rest ih =>
      obtain ⟨k1, w⟩ := p
      simp only [List.map_cons, List.nodup_cons] at h
      by_cases h1 : k1 = k
      · subst h1
        simp [alistDel, alistGet_eq_none rest _ h.1]
      · simp [alistDel, alistGet, h1, ih h.2]

theorem alistSet_append {α : Type} (l : List (String × α)) (k : String)
    (v : α) (h : k ∉ l.map Prod.fst) : alistSet l k v = l ++ [(k, v)] := by
  induction l with
  | nil => simp [alistSet]
  | cons p rest ih =>
      obtain ⟨k1, w⟩ := p
      simp only [List.map_cons, List.mem_cons] at h
      push_neg at h
      simp [alistSet, Ne.symm h.1, ih h.2]

/-! ### Key-sorting facts -/

/-- Strict version of `keyLE`: the reverse comparison fails. -/
def keyLT (p q : String × PyObj) : Prop :=
  charsLE q.1.toList p.1.toList = false

instance : IsAntisymm (String × PyObj) keyLT :=
  ⟨fun p q h1 h2 => by
    rcases charsLE_total p.1.toList q.1.toList with h | h
    · rw [keyLT] at h2
      rw [h] at h2
      cases h2
    · rw [keyLT] at h1
      rw [h] at h1
      cases h1⟩

theorem keyLT_of_keyLE_ne {p q : String × PyObj} (hle : keyLE p q)
    (hne : p.1 ≠ q.1) : keyLT p q := by
  by_cases h : charsLE q.1.toList p.1.toList = true
  · have heq : p.1.toList = q.1.toList := charsLE_antisymm _ _ hle h
    exact absurd (String.ext heq) hne
  · exact Bool.eq_false_iff.mpr h

theorem sortKV_sorted (l : List (String × PyObj)) :
    List.Sorted keyLE (sortKV l) := List.sorted_insertionSort keyLE l

theorem sortKV_perm (l : List (String × PyObj)) : (sortKV l).Perm l :=
  List.perm_insertionSort keyLE l

theorem sorted_strict_of_nodup (m : List (String × PyObj))
    (hs : List.Sorted keyLE m) (hnd : (m.map Prod.fst).Nodup) :
    List.Sorted keyLT m := by
  have hpw : List.Pairwise (fun a b : String × PyObj => a.1 ≠ b.1) m :=
    List.pairwise_map.mp hnd
  exact (hs.and hpw).imp fun h => keyLT_of_keyLE_ne h.1 h.2

theorem sortKV_eq_of_perm (l₁ l₂ : List (String × PyObj)) (hp : l₁.Perm l₂)
    (hnd : (l₁.map Prod.fst).Nodup) : sortKV l₁ = sortKV l₂ := by
  have hp2 : (sortKV l₁).Perm (sortKV l₂) :=
    (sortKV_perm l₁).trans (hp.trans (sortKV_perm l₂).symm)
  have hnd1 : ((sortKV l₁).map Prod.fst).Nodup :=
    (((sortKV_perm l₁).map Prod.fst).nodup_iff).mpr hnd
  have hnd2 : ((sortKV l₂).map Prod.fst).Nodup :=
    ((hp2.map Prod.fst).nodup_iff).mp hnd1
  exact List.eq_of_perm_of_sorted hp2
    (sorted_strict_of_nodup _ (sortKV_sorted l₁) hnd1)
    (sorted_strict_of_nodup _ (sortKV_sorted l₂) hnd2)

theorem nodupStr_iff (l : List String) : nodupStr l = true ↔ l.Nodup := by
  induction l with
  | nil => simp [nodupStr]
  | cons k ks ih => simp [nodupStr, List.nodup_cons, ih]

/-! ### Serializability facts -/

theorem pyobj_size_pos (v : PyObj) : 0 < sizeOf v := by
  cases v <;> simp

theorem pyRec (P : PyObj → Prop)
    (h : ∀ v, (∀ w, sizeOf w < sizeOf v → P w) → P v) : ∀ v, P v := by
  have main : ∀ N v, sizeOf v ≤ N → P v := by
    intro N
    induction N with
    | zero =>
        intro v hv
        have := pyobj_size_pos v
        omega
    | succ N ih =>
        intro v hv
        exact h v (fun w hw => ih w (by omega))
  exact fun v => main (sizeOf v) v le_rfl

theorem sizeOf_mem_list {x : PyObj} {xs : List PyObj} (hx : x ∈ xs) :
    sizeOf x < sizeOf (PyObj.list xs) := by
  have := List.sizeOf_lt_of_mem hx
  simp only [PyObj.list.sizeOf_spec]
  omega

theorem sizeOf_mem_dict {kv : String × PyObj} {kvs : List (String × PyObj)}
    (hkv : kv ∈ kvs) : sizeOf kv.2 < sizeOf (PyObj.dict kvs) := by
  have h1 := List.sizeOf_lt_of_mem hkv
  obtain ⟨k, v⟩ := kv
  simp only [PyObj.dict.sizeOf_spec]
  simp only [Prod.mk.sizeOf_spec] at h1
  omega

theorem serList_isSome (xs : List PyObj)
    (h : ∀ x ∈ xs, (ser x).isSome = serializable x) :
    (serList xs).isSome = serializableList xs := by
  induction xs with
  | nil => simp [serList, serializableList]
  | cons x xs ih =>
      have hx := h x (by simp)
      have ihh := ih (fun y hy => h y (by simp [hy]))
      simp only [serList, serializableList]
      cases hsx : ser x <;> cases hsxs : serList xs <;> simp_all

theorem serKVs_isSome (kvs : List (String × PyObj))
    (h : ∀ kv ∈ kvs, (ser kv.2).isSome = serializable kv.2) :
    (serKVs kvs).isSome = serializableKVs kvs := by
  induction kvs with
  | nil => simp [serKVs, serializableKVs]
  | cons kv kvs ih =>
      obtain ⟨k, v⟩ := kv
      have hx := h (k, v) (by simp)
      have ihh := ih (fun y hy => h y (by simp [hy]))
      simp only [serKVs, serializableKVs]
      cases hsx : ser v <;> cases hsxs : serKVs kvs <;> simp_all

theorem serializable_isSome : ∀ v : PyObj, (ser v).isSome = serializable v := by
  apply pyRec
  intro v ih
  cases v with
  | none => simp [ser, serializable]
  | bool b => cases b <;> simp [ser, serializable]
  | int n => simp [ser, serializable]
  | str s => simp [ser, serializable]
  | obj t => simp [ser, serializable]
  | list xs =>
      have hl := serList_isSome xs (fun x hx => ih x (sizeOf_mem_list hx))
      simp only [ser, serializable]
      cases hsl : serList xs <;> simp_all
  | dict kvs =>
      have hl := serKVs_isSome kvs (fun kv hkv => ih kv.2 (sizeOf_mem_dict hkv))
      simp only [ser, serializable]
      cases hsl : serKVs kvs <;> simp_all

/-! ### `sortAll` facts -/

theorem sortAllList_eq (xs : List PyObj) : sortAllList xs = xs.map sortAll := by
  induction xs with
  | nil => simp [sortAllList]
  | cons x xs ih => simp [sortAllList, ih]

theorem sortAllKVs_eq (kvs : List (String × PyObj)) :
    sortAllKVs kvs = kvs.map (fun kv => (kv.1, sortAll kv.2)) := by
  induction kvs with
  | nil => simp [sortAllKVs]
  | cons kv kvs ih =>
      obtain ⟨k, v⟩ := kv
      simp [sortAllKVs, ih]

theorem keys_sortAllKVs (kvs : List (String × PyObj)) :
    (sortAllKVs kvs).map Prod.fst = kvs.map Prod.fst := by
  rw [sortAllKVs_eq, List.map_map]
  rfl

theorem serializableList_iff (xs : List PyObj) :
    serializableList xs = true ↔ ∀ x ∈ xs, serializable x = true := by
  induction xs with
  | nil => simp [serializableList]
  | cons x xs ih => simp [serializableList, ih]

theorem serializableKVs_iff (kvs : List (String × PyObj)) :
    serializableKVs kvs = true ↔ ∀ kv ∈ kvs, serializable kv.2 = true := by
  induction kvs with
  | nil => simp [serializableKVs]
  | cons kv kvs ih =>
      obtain ⟨k, v⟩ := kv
      simp [serializableKVs, ih]

theorem serializableKVs_perm (l₁ l₂ : List (String × PyObj)) (hp : l₁.Perm l₂) :
    serializableKVs l₁ = serializableKVs l₂ := by
  by_cases h1 : serializableKVs l₁ = true <;>
    by_cases h2 : serializableKVs l₂ = true
  · rw [h1, h2]
  · rw [serializableKVs_iff] at h1
    exact absurd ((serializableKVs_iff l₂).mpr
      (fun kv hkv => h1 kv (hp.mem_iff.mpr hkv))) h2
  · rw [serializableKVs_iff] at h2
    exact absurd ((serializableKVs_iff l₁).mpr
      (fun kv hkv => h2 kv (hp.mem_iff.mp hkv))) h1
  · rw [Bool.not_eq_true] at h1 h2
    rw [h1, h2]

theorem serializable_sortAll : ∀ v : PyObj,
    serializable (sortAll v) = serializable v := by
  apply pyRec
  intro v ih
  cases v with
  | none => simp [sortAll]
  | bool b => simp [sortAll]
  | int n => simp [sortAll]
  | str s => simp [sortAll]
  | obj t => simp [sortAll]
  | list xs =>
      simp only [sortAll, serializable]
      by_cases h : serializableList xs = true
      · rw [h, serializableList_iff]
        rw [serializableList_iff] at h
        intro y hy
        rw [sortAllList_eq] at hy
        obtain ⟨x, hx, rfl⟩ := List.mem_map.mp hy
        rw [ih x (sizeOf_mem_list hx)]
        exact h x hx
      · rw [Bool.not_eq_true] at h
        rw [h]
        rw [Bool.eq_false_iff]
        intro hc
        rw [serializableList_iff] at hc
        have : serializableList xs = true := by
          rw [serializableList_iff]
          intro x hx
          have hmem : sortAll x ∈ sortAllList xs := by
            rw [sortAllList_eq]
            exact List.mem_map.mpr ⟨x, hx, rfl⟩
          have := hc (sortAll x) hmem
          rwa [ih x (sizeOf_mem_list hx)] at this
        simp [this] at h
  | dict kvs =>
      simp only [sortAll, serializable]
      rw [serializableKVs_perm _ _ (sortKV_perm (sortAllKVs kvs))]
      by_cases h : serializableKVs kvs = true
      · rw [h, serializableKVs_iff]
        intro kv hkv
        rw [sortAllKVs_eq] at hkv
        obtain ⟨kv0, hkv0, rfl⟩ := List.mem_map.mp hkv
        rw [ih kv0.2 (sizeOf_mem_dict hkv0)]
        exact (serializableKVs_iff kvs).mp h kv0 hkv0
      · rw [Bool.not_eq_true] at h
        rw [h, Bool.eq_false_iff]
        intro hc
        rw [serializableKVs_iff] at hc
        have : serializableKVs kvs = true := by
          rw [serializableKVs_iff]
          intro kv hkv
          have hmem : (kv.1, sortAll kv.2) ∈ sortAllKVs kvs := by
            rw [sortAllKVs_eq]
            exact List.mem_map.mpr ⟨kv, hkv, rfl⟩
          have := hc _ hmem
          rwa [ih kv.2 (sizeOf_mem_dict hkv)] at this
        simp [this] at h

theorem json_dumps_isSome (sk : Bool) (v : PyObj) :
    (json_dumps sk v).isSome = serializable v := by
  unfold json_dumps
  cases sk with
  | false =>
      have := serializable_isSome v
      cases hs : ser v <;> simp_all
  | true =>
      have h1 := serializable_isSome (sortAll v)
      have h2 := serializable_sortAll v
      cases hs : ser (sortAll v) <;> simp_all

/-! ### Claim C1: key insensitive to params insertion order -/

/-- C1: `generate_cache_key` is deterministic (it is a pure function of
its three inputs) and insensitive to the insertion order of the params
dict: two parameter dicts holding the same key-value pairs in any
insertion order (keys distinct, as in any CPython dict) yield the
identical key. -/
theorem generate_cache_key_insertion_order (model : String)
    (messages : List PyObj) (p₁ p₂ : List (String × PyObj))
    (hnd : (p₁.map Prod.fst).Nodup) (hperm : p₁.Perm p₂) :
    generate_cache_key model messages p₁ =
      generate_cache_key model messages p₂ := by
  have hkv : sortKV (sortAllKVs p₁) = sortKV (sortAllKVs p₂) := by
    apply sortKV_eq_of_perm
    · rw [sortAllKVs_eq p₁, sortAllKVs_eq p₂]
      exact hperm.map _
    · rw [keys_sortAllKVs]
      exact hnd
  unfold generate_cache_key json_dumps
  simp only [if_true, sortAll, sortAllKVs, sortAllList, hkv]

/-- Instance of `generate_cache_key_insertion_order` at concrete inputs:
the hypotheses are satisfiable and the two keys coincide. -/
theorem generate_cache_key_insertion_order_witness :
    (([(("temperature" : String), PyObj.int 1),
       ("max_tokens", PyObj.int 256)].map Prod.fst).Nodup) ∧
    generate_cache_key "gpt-4o"
      [PyObj.dict [("role", PyObj.str "user"), ("content", PyObj.str "hi")]]
      [("temperature", PyObj.int 1), ("max_tokens", PyObj.int 256)] =
    generate_cache_key "gpt-4o"
      [PyObj.dict [("role", PyObj.str "user"), ("content", PyObj.str "hi")]]
      [("max_tokens", PyObj.int 256), ("temperature", PyObj.int 1)] :=
  ⟨by decide,
   generate_cache_key_insertion_order _ _ _ _ (by decide)
     (List.Perm.swap _ _ _)⟩

/-! ### Claim C8: totality on serializable input, hex output -/

/-- Lower-case hex digit test. -/
def isHexDigit (c : Char) : Bool :=
  (48 ≤ c.toNat && c.toNat ≤ 57) || (97 ≤ c.toNat && c.toNat ≤ 102)

theorem isHexDigit_hexLower (n : Nat) : isHexDigit (hexLower n) = true := by
  unfold hexLower
  split <;> decide

theorem hexOfBytes_length (bs : List Nat) :
    (hexOfBytes bs).length = 2 * bs.length := by
  induction bs with
  | nil => simp [hexOfBytes]
  | cons b bs ih => simp [hexOfBytes, ih]; omega

theorem hexOfBytes_all_hex (bs : List Nat) :
    ∀ c ∈ hexOfBytes bs, isHexDigit c = true := by
  induction bs with
  | nil => simp [hexOfBytes]
  | cons b bs ih =>
      intro c hc
      simp only [hexOfBytes, List.mem_cons] at hc
      rcases hc with rfl | rfl | hc
      · exact isHexDigit_hexLower _
      · exact isHexDigit_hexLower _
      · exact ih c hc

theorem md5Bytes_length (msg : List Nat) : (md5Bytes msg).length = 16 := by
  unfold md5Bytes
  simp [le32]

theorem md5_hexdigest_length (s : String) : (md5_hexdigest s).length = 32 := by
  unfold md5_hexdigest
  show (hexOfBytes (md5Bytes (utf8Bytes s))).length = 32
  rw [hexOfBytes_length, md5Bytes_length]

/-- C8: `generate_cache_key` is a pure function (it is embedded as a
function of exactly its three inputs and the state is untouched), it
fails -- the `TypeError` from `json.dumps` propagates to the caller --
exactly when the messages or params are not JSON-serializable, and on
any serializable input it returns a 32-character hex digest. -/
theorem generate_cache_key_total_hex (model : String) (messages : List PyObj)
    (params : List (String × PyObj)) :
    (generate_cache_key model messages params).isSome =
      (serializableList messages && serializableKVs params) ∧
    ∀ s, generate_cache_key model messages params = some s →
      s.length = 32 ∧ s.data.all isHexDigit = true := by
  have hs : serializable (PyObj.dict
      [("model", PyObj.str model), ("messages", PyObj.list messages),
       ("params", PyObj.dict params)]) =
      (serializableList messages && serializableKVs params) := by
    simp [serializable, serializableKVs]
  constructor
  · have hiff := json_dumps_isSome true (PyObj.dict
      [("model", PyObj.str model), ("messages", PyObj.list messages),
       ("params", PyObj.dict params)])
    rw [hs] at hiff
    rw [← hiff]
    unfold generate_cache_key
    cases hd : json_dumps true (PyObj.dict
      [("model", PyObj.str model), ("messages", PyObj.list messages),
       ("params", PyObj.dict params)]) <;> simp [hd]
  · intro s hsome
    have hsome2 : (match json_dumps true (PyObj.dict
        [("model", PyObj.str model), ("messages", PyObj.list messages),
         ("params", PyObj.dict params)]) with
      | some cache_str => some (md5_hexdigest cache_str)
      | Option.none => Option.none) = some s := hsome
    cases hd : json_dumps true (PyObj.dict
      [("model", PyObj.str model), ("messages", PyObj.list messages),
       ("params", PyObj.dict params)]) with
    | none => rw [hd] at hsome2; simp at hsome2
    | some cache_str =>
        rw [hd] at hsome2
        simp at hsome2
        subst hsome2
        refine ⟨md5_hexdigest_length _, ?_⟩
        rw [List.all_eq_true]
        intro c hc
        exact hexOfBytes_all_hex _ c hc

set_option maxRecDepth 100000 in
/-- Instance of `generate_cache_key_total_hex` at a concrete input,
including the concrete digest the function produces. -/
theorem generate_cache_key_total_hex_witness :
    ((generate_cache_key "m" [] []).isSome =
      (serializableList [] && serializableKVs [])) ∧
    (("84b348fba6076ee4f1f3330af1166883" : String).length = 32 ∧
     ("84b348fba6076ee4f1f3330af1166883" : String).data.all isHexDigit = true) :=
  ⟨(generate_cache_key_total_hex "m" [] []).1,
   (generate_cache_key_total_hex "m" [] []).2 _ (by rfl)⟩

/-! ### Number printing and parsing invert each other -/

/-- The power of ten matching the digits `natCharsAux` emits. -/
def npow10Aux : Nat → Nat → Nat
  | 0, _ => 1
  | fuel + 1, n => if n < 10 then 10 else 10 * npow10Aux fuel (n / 10)

theorem hexLower_digit : ∀ n < 10,
    isDigit (hexLower n) = true ∧ (hexLower n).toNat = n + 48 := by decide

/-- A list whose head (if any) cannot extend a digit run. -/
def noDigitHead : List Char → Prop
  | [] => True
  | c :: _ => isDigit c = false

theorem parseDigits_natCharsAux : ∀ fuel n, n < fuel → ∀ acc rest,
    parseDigits (natCharsAux fuel n ++ rest) acc =
      parseDigits rest (acc * npow10Aux fuel n + n) := by
  intro fuel
  induction fuel with
  | zero => intro n hn; omega
  | succ fuel ih =>
      intro n hn acc rest
      by_cases h : n < 10
      · obtain ⟨hd, ht⟩ := hexLower_digit n h
        simp only [natCharsAux, npow10Aux, h, if_pos]
        simp [parseDigits, hd, ht]
      · have h10 : n / 10 < fuel := by
          have := Nat.div_lt_self (show 0 < n by omega) (show 1 < 10 by omega)
          omega
        obtain ⟨hd, ht⟩ := hexLower_digit (n % 10) (Nat.mod_lt n (by omega))
        simp only [natCharsAux, npow10Aux, h, ite_false, ite_true,
          decide_eq_true_eq, if_neg, List.append_assoc, List.cons_append,
          List.nil_append]
        rw [ih (n / 10) h10]
        simp only [parseDigits, hd, if_pos, ht]
        rw [show (acc * npow10Aux fuel (n / 10) + n / 10) * 10 + (n % 10 + 48 - 48)
          = acc * (10 * npow10Aux fuel (n / 10)) + (10 * (n / 10) + n % 10) from by
            rw [show n % 10 + 48 - 48 = n % 10 from by omega]
            ring]
        rw [Nat.div_add_mod n 10]

theorem parseDigits_stop (n : Nat) (rest : List Char) (h : noDigitHead rest) :
    parseDigits rest n = (n, rest) := by
  cases rest with
  | nil => simp [parseDigits]
  | cons c cs =>
      simp only [noDigitHead] at h
      simp [parseDigits, h]

theorem parseDigits_natChars (n : Nat) (rest : List Char)
    (h : noDigitHead rest) :
    parseDigits (natChars n ++ rest) 0 = (n, rest) := by
  unfold natChars
  rw [parseDigits_natCharsAux (n + 1) n (by omega)]
  simp [parseDigits_stop _ _ h]

theorem natCharsAux_head : ∀ fuel n, n < fuel →
    ∃ d ds, natCharsAux fuel n = d :: ds ∧ isDigit d = true := by
  intro fuel
  induction fuel with
  | zero => intro n hn; omega
  | succ fuel ih =>
      intro n hn
      by_cases h : n < 10
      · exact ⟨hexLower n, [], by simp [natCharsAux, h],
          (hexLower_digit n h).1⟩
      · have h10 : n / 10 < fuel := by
          have := Nat.div_lt_self (show 0 < n by omega) (show 1 < 10 by omega)
          omega
        obtain ⟨d, ds, heq, hd⟩ := ih (n / 10) h10
        exact ⟨d, ds ++ [hexLower (n % 10)], by simp [natCharsAux, h, heq], hd⟩

theorem natChars_head (n : Nat) :
    ∃ d ds, natChars n = d :: ds ∧ isDigit d = true :=
  natCharsAux_head (n + 1) n (by omega)

/-! ### String escaping and unescaping invert each other -/

theorem hexVal_hexLower : ∀ d < 16, hexVal (hexLower d) = some d := by decide

theorem hex4_digits (n : Nat) (hn : n < 65536) (rest : List Char) :
    hex4 (hexLower (n / 4096 % 16) :: hexLower (n / 256 % 16) ::
      hexLower (n / 16 % 16) :: hexLower (n % 16) :: rest) = some (n, rest) := by
  simp only [hex4,
    hexVal_hexLower (n / 4096 % 16) (Nat.mod_lt _ (by omega)),
    hexVal_hexLower (n / 256 % 16) (Nat.mod_lt _ (by omega)),
    hexVal_hexLower (n / 16 % 16) (Nat.mod_lt _ (by omega)),
    hexVal_hexLower (n % 16) (Nat.mod_lt _ (by omega))]
  congr 2
  omega

theorem char_valid_nat (c : Char) :
    c.toNat < 55296 ∨ (57344 ≤ c.toNat ∧ c.toNat < 1114112) := by
  have h := c.valid
  cases h with
  | inl h => left; exact h
  | inr h => right; exact h


theorem parseEsc_u (m : Nat) (hm : m < 65536)
    (hs1 : ¬(55296 ≤ m ∧ m ≤ 56319)) (hs2 : ¬(56320 ≤ m ∧ m ≤ 57343))
    (rest : List Char) :
    parseEsc ('u' :: hexLower (m / 4096 % 16) :: hexLower (m / 256 % 16) ::
      hexLower (m / 16 % 16) :: hexLower (m % 16) :: rest) =
      some (Char.ofNat m, rest) := by
  simp only [parseEsc, ite_true, hex4_digits m hm, eq_false hs1,
    eq_false hs2, ite_false]

theorem parseEsc_surr (m : Nat) (hlo : 65536 ≤ m) (hhi : m < 1114112)
    (rest : List Char) :
    parseEsc ('u' :: hexLower ((55296 + (m - 65536) / 1024) / 4096 % 16) ::
      hexLower ((55296 + (m - 65536) / 1024) / 256 % 16) ::
      hexLower ((55296 + (m - 65536) / 1024) / 16 % 16) ::
      hexLower ((55296 + (m - 65536) / 1024) % 16) ::
      '\\' :: 'u' :: hexLower ((56320 + (m - 65536) % 1024) / 4096 % 16) ::
      hexLower ((56320 + (m - 65536) % 1024) / 256 % 16) ::
      hexLower ((56320 + (m - 65536) % 1024) / 16 % 16) ::
      hexLower ((56320 + (m - 65536) % 1024) % 16) :: rest) =
      some (Char.ofNat m, rest) := by
  have hmod := Nat.mod_lt (m - 65536) (show 0 < 1024 by omega)
  simp only [parseEsc, ite_true,
    hex4_digits (55296 + (m - 65536) / 1024) (by omega),
    eq_true (show 55296 ≤ 55296 + (m - 65536) / 1024 ∧
      55296 + (m - 65536) / 1024 ≤ 56319 by omega),
    hex4_digits (56320 + (m - 65536) % 1024) (by omega),
    eq_true (show 56320 ≤ 56320 + (m - 65536) % 1024 ∧
      56320 + (m - 65536) % 1024 ≤ 57343 by omega), ite_false]
  rw [show 65536 + (55296 + (m - 65536) / 1024 - 55296) * 1024 +
      (56320 + (m - 65536) % 1024 - 56320) = m from by
    have := Nat.div_add_mod (m - 65536) 1024
    omega]

theorem parseEsc_short (e ch : Char) (he : ¬e = 'u') (hs : escShort e = some ch)
    (rest : List Char) : parseEsc (e :: rest) = some (ch, rest) := by
  simp [parseEsc, he, hs]

theorem parseStrChars_esc_step (f : Nat) (tail : List Char) :
    parseStrChars (f + 1) ('\\' :: tail) =
      (match parseEsc tail with
       | some (ch, cs2) => consRes ch (parseStrChars f cs2)
       | Option.none => Option.none) := by
  simp only [parseStrChars, eq_false (show ¬(('\\' : Char) = '"') by decide),
    eq_true (show (('\\' : Char) = '\\') from rfl), ite_false, ite_true]

theorem parseStrChars_lit_step (f : Nat) (c : Char) (tail : List Char)
    (hq : ¬c = '"') (hb : ¬c = '\\') :
    parseStrChars (f + 1) (c :: tail) = consRes c (parseStrChars f tail) := by
  simp only [parseStrChars, if_neg hq, if_neg hb]

theorem parseStr_esc (cs : List Char) : ∀ fuel (rest : List Char),
    cs.length < fuel →
    parseStrChars fuel (escChars cs ++ '"' :: rest) = some (cs, rest) := by
  induction cs with
  | nil =>
      intro fuel rest hf
      cases fuel with
      | zero => omega
      | succ f => simp [escChars, parseStrChars]
  | cons c cs ih =>
      intro fuel rest hf
      cases fuel with
      | zero => simp at hf
      | succ f =>
      have hrec := ih f rest (by simp at hf; omega)
      have hvalid := char_valid_nat c
      simp only [escChars, List.append_assoc]
      by_cases hq : c = '"'
      · subst hq
        rw [show escChar '"' = ['\\', '"'] from rfl]
        simp only [List.cons_append, List.nil_append]
        rw [parseStrChars_esc_step, parseEsc_short '"' '"' (by decide) rfl]
        simp [consRes, hrec]
      · by_cases hb : c = '\\'
        · subst hb
          rw [show escChar '\\' = ['\\', '\\'] from rfl]
          simp only [List.cons_append, List.nil_append]
          rw [parseStrChars_esc_step, parseEsc_short '\\' '\\' (by decide) rfl]
          simp [consRes, hrec]
        · by_cases h8 : c.toNat = 8
          · simp only [escChar, if_neg hq, if_neg hb, if_pos h8,
              List.cons_append, List.nil_append]
            rw [parseStrChars_esc_step,
              parseEsc_short 'b' (Char.ofNat 8) (by decide) rfl]
            have hc : Char.ofNat 8 = c := by rw [← h8, Char.ofNat_toNat]
            simp only [consRes, hrec]; rw [hc]
          · by_cases h9 : c.toNat = 9
            · simp only [escChar, if_neg hq, if_neg hb, if_neg h8, if_pos h9,
                List.cons_append, List.nil_append]
              rw [parseStrChars_esc_step,
                parseEsc_short 't' '\t' (by decide) rfl]
              have hc : '\t' = c := by
                have h2 : Char.ofNat 9 = c := by rw [← h9, Char.ofNat_toNat]
                simpa using h2
              simp only [consRes, hrec]; rw [hc]
            · by_cases h10 : c.toNat = 10
              · simp only [escChar, if_neg hq, if_neg hb, if_neg h8,
                  if_neg h9, if_pos h10, List.cons_append, List.nil_append]
                rw [parseStrChars_esc_step,
                  parseEsc_short 'n' '\n' (by decide) rfl]
                have hc : '\n' = c := by
                  have h2 : Char.ofNat 10 = c := by rw [← h10, Char.ofNat_toNat]
                  simpa using h2
                simp only [consRes, hrec]; rw [hc]
              · by_cases h12 : c.toNat = 12
                · simp only [escChar, if_neg hq, if_neg hb, if_neg h8,
                    if_neg h9, if_neg h10, if_pos h12, List.cons_append,
                    List.nil_append]
                  rw [parseStrChars_esc_step,
                    parseEsc_short 'f' (Char.ofNat 12) (by decide) rfl]
                  have hc : Char.ofNat 12 = c := by rw [← h12, Char.ofNat_toNat]
                  simp only [consRes, hrec]; rw [hc]
                · by_cases h13 : c.toNat = 13
                  · simp only [escChar, if_neg hq, if_neg hb, if_neg h8,
                      if_neg h9, if_neg h10, if_neg h12, if_pos h13,
                      List.cons_append, List.nil_append]
                    rw [parseStrChars_esc_step,
                      parseEsc_short 'r' '\r' (by decide) rfl]
                    have hc : '\r' = c := by
                      have h2 : Char.ofNat 13 = c := by
                        rw [← h13, Char.ofNat_toNat]
                      simpa using h2
                    simp only [consRes, hrec]; rw [hc]
                  · by_cases h32 : c.toNat < 32
                    · simp only [escChar, if_neg hq, if_neg hb, if_neg h8,
                        if_neg h9, if_neg h10, if_neg h12, if_neg h13,
                        if_pos h32, uEsc, List.cons_append, List.nil_append]
                      rw [parseStrChars_esc_step,
                        parseEsc_u c.toNat (by omega) (by omega) (by omega)]
                      simp [consRes, hrec, Char.ofNat_toNat]
                    · by_cases h127 : c.toNat < 127
                      · simp only [escChar, if_neg hq, if_neg hb, if_neg h8,
                          if_neg h9, if_neg h10, if_neg h12, if_neg h13,
                          if_neg h32, if_pos h127, List.cons_append,
                          List.nil_append]
                        rw [parseStrChars_lit_step f c _ hq hb]
                        simp [consRes, hrec]
                      · by_cases hbmp : c.toNat < 65536
                        · simp only [escChar, if_neg hq, if_neg hb, if_neg h8,
                            if_neg h9, if_neg h10, if_neg h12, if_neg h13,
                            if_neg h32, if_neg h127, if_pos hbmp, uEsc,
                            List.cons_append, List.nil_append]
                          rw [parseStrChars_esc_step,
                            parseEsc_u c.toNat (by omega) (by omega) (by omega)]
                          simp [consRes, hrec, Char.ofNat_toNat]
                        · simp only [escChar, if_neg hq, if_neg hb, if_neg h8,
                            if_neg h9, if_neg h10, if_neg h12, if_neg h13,
                            if_neg h32, if_neg h127, if_neg hbmp, uEsc,
                            List.cons_append, List.nil_append,
                            List.append_assoc]
                          rw [parseStrChars_esc_step,
                            parseEsc_surr c.toNat (by omega) (by omega)]
                          simp [consRes, hrec, Char.ofNat_toNat]

/-! ### Fuel accounting for the value parser -/

mutual

/-- Fuel needed by `parseVal` to parse the serialization of a value. -/
def pyFuel : PyObj → Nat
  | PyObj.none => 1
  | PyObj.bool _ => 1
  | PyObj.int _ => 1
  | PyObj.str _ => 1
  | PyObj.list xs => pyFuelL xs + 1
  | PyObj.dict kvs => pyFuelKV kvs + 1
  | PyObj.obj _ => 1

/-- Fuel needed by `parseElems` for a serialized element list. -/
def pyFuelL : List PyObj → Nat
  | [] => 0
  | x :: xs => max (pyFuel x) (pyFuelL xs) + 1

/-- Fuel needed by `parseMembers` for a serialized member list. -/
def pyFuelKV : List (String × PyObj) → Nat
  | [] => 0
  | (_, v) :: kvs => max (pyFuel v) (pyFuelKV kvs) + 1

end

theorem natChars_ne_nil (n : Nat) : natChars n ≠ [] := by
  obtain ⟨d, ds, heq, _⟩ := natChars_head n
  simp [heq]

theorem ser_length_pos (v : PyObj) (cs : List Char) (h : ser v = some cs) :
    1 ≤ cs.length := by
  cases v with
  | none => simp [ser] at h; subst h; simp
  | bool b => cases b <;> (simp [ser] at h; subst h; simp)
  | int n =>
      simp only [ser, Option.some.injEq] at h
      subst h
      unfold intChars
      by_cases hn : n < 0
      · simp [hn]
      · simp only [hn, ite_false]
        have := natChars_ne_nil n.toNat
        cases hc : natChars n.toNat with
        | nil => exact absurd hc this
        | cons d ds => simp [hc]
  | str s => simp [ser] at h; subst h; simp
  | list xs =>
      simp only [ser] at h
      cases hsl : serList xs with
      | none => rw [hsl] at h; cases h
      | some parts => rw [hsl] at h; simp at h; subst h; simp
  | dict kvs =>
      simp only [ser] at h
      cases hsl : serKVs kvs with
      | none => rw [hsl] at h; cases h
      | some parts => rw [hsl] at h; simp at h; subst h; simp
  | obj t => simp [ser] at h

theorem pyFuel_bound_list (xs : List PyObj)
    (hx : ∀ x ∈ xs, ∀ cs, ser x = some cs → pyFuel x ≤ cs.length + 1) :
    ∀ parts, serList xs = some parts →
      pyFuelL xs ≤ (joinComma parts).length + 2 := by
  induction xs with
  | nil =>
      intro parts h
      simp [serList] at h
      subst h
      simp [pyFuelL, joinComma]
  | cons x xs ih =>
      intro parts h
      simp only [serList] at h
      cases hsx : ser x with
      | none => rw [hsx] at h; cases h
      | some p =>
          cases hsl : serList xs with
          | none => rw [hsx, hsl] at h; cases h
          | some ps =>
              rw [hsx, hsl] at h
              simp at h
              subst h
              have h1 := hx x (by simp) p hsx
              have h2 := ih (fun y hy => hx y (by simp [hy])) ps hsl
              have h3 := ser_length_pos x p hsx
              cases ps with
              | nil =>
                  have h2b : pyFuelL xs ≤ 2 :=
                    le_trans h2 (by simp [joinComma])
                  simp only [pyFuelL, joinComma]
                  omega
              | cons p2 ps2 =>
                  simp only [pyFuelL, joinComma, List.length_append,
                    List.length_cons]
                  omega

theorem pyFuel_bound_kvs (kvs : List (String × PyObj))
    (hx : ∀ kv ∈ kvs, ∀ cs, ser kv.2 = some cs → pyFuel kv.2 ≤ cs.length + 1) :
    ∀ parts, serKVs kvs = some parts →
      pyFuelKV kvs ≤ (joinComma parts).length + 2 := by
  induction kvs with
  | nil =>
      intro parts h
      simp [serKVs] at h
      subst h
      simp [pyFuelKV, joinComma]
  | cons kv kvs ih =>
      obtain ⟨k, v⟩ := kv
      intro parts h
      simp only [serKVs] at h
      cases hsx : ser v with
      | none => rw [hsx] at h; cases h
      | some p =>
          cases hsl : serKVs kvs with
          | none => rw [hsx, hsl] at h; cases h
          | some ps =>
              rw [hsx, hsl] at h
              simp at h
              subst h
              have h1 : pyFuel v ≤ p.length + 1 := hx (k, v) (by simp) p hsx
              have h2 := ih (fun y hy => hx y (by simp [hy])) ps hsl
              have h3 := ser_length_pos v p hsx
              cases ps with
              | nil =>
                  have h2b : pyFuelKV kvs ≤ 2 :=
                    le_trans h2 (by simp [joinComma])
                  simp only [pyFuelKV, joinComma, List.length_cons,
                    List.length_append]
                  omega
              | cons p2 ps2 =>
                  simp only [pyFuelKV, joinComma, List.length_append,
                    List.length_cons]
                  omega

theorem pyFuel_bound : ∀ v : PyObj, ∀ cs, ser v = some cs →
    pyFuel v ≤ cs.length + 1 := by
  apply pyRec
  intro v ih
  cases v with
  | none => intro cs h; simp [pyFuel]
  | bool b => intro cs h; simp [pyFuel]
  | int n => intro cs h; simp [pyFuel]
  | str s => intro cs h; simp [pyFuel]
  | obj t => intro cs h; simp [ser] at h
  | list xs =>
      intro cs h
      simp only [ser] at h
      cases hsl : serList xs with
      | none => rw [hsl] at h; cases h
      | some parts =>
          rw [hsl] at h
          simp at h
          subst h
          have := pyFuel_bound_list xs
            (fun x hx => ih x (sizeOf_mem_list hx)) parts hsl
          simp only [pyFuel, List.length_cons, List.length_append,
            List.length_singleton]
          omega
  | dict kvs =>
      intro cs h
      simp only [ser] at h
      cases hsl : serKVs kvs with
      | none => rw [hsl] at h; cases h
      | some parts =>
          rw [hsl] at h
          simp at h
          subst h
          have := pyFuel_bound_kvs kvs
            (fun kv hkv => ih kv.2 (sizeOf_mem_dict hkv)) parts hsl
          simp only [pyFuel, List.length_cons, List.length_append,
            List.length_singleton]
          omega

/-! ### Head characters of serializations, parser step lemmas -/

theorem digit_facts (d : Char) (hd : isDigit d = true) :
    wsChar d = false ∧ ¬d = 'n' ∧ ¬d = 't' ∧ ¬d = 'f' ∧ ¬d = '"' ∧
    ¬d = '\x5b' ∧ ¬d = '\x7b' ∧ ¬d = '-' ∧ ¬d = '\x5d' ∧ ¬d = '\x7d' := by
  refine ⟨?_, ?_, ?_, ?_, ?_, ?_, ?_, ?_, ?_, ?_⟩
  · by_cases h : wsChar d = true
    · simp only [wsChar, Bool.or_eq_true, decide_eq_true_eq] at h
      rcases h with ((rfl | rfl) | rfl) | rfl <;> exact absurd hd (by decide)
    · simpa using h
  all_goals intro h
  all_goals subst h
  all_goals exact absurd hd (by decide)

theorem ser_head (x : PyObj) (cs : List Char) (h : ser x = some cs) :
    ∃ c cs2, cs = c :: cs2 ∧ wsChar c = false ∧ ¬c = '\x5d' ∧ ¬c = '\x7d' := by
  cases x with
  | none =>
      simp [ser] at h
      exact ⟨'n', _, h.symm, by decide, by decide, by decide⟩
  | bool b =>
      cases b with
      | true =>
          simp [ser] at h
          exact ⟨'t', _, h.symm, by decide, by decide, by decide⟩
      | false =>
          simp [ser] at h
          exact ⟨'f', _, h.symm, by decide, by decide, by decide⟩
  | int n =>
      simp only [ser, Option.some.injEq] at h
      subst h
      unfold intChars
      by_cases hn : n < 0
      · exact ⟨'-', natChars n.natAbs, by simp [hn], by decide, by decide,
          by decide⟩
      · simp only [hn, ite_false]
        obtain ⟨d, ds, heq, hd⟩ := natChars_head n.toNat
        obtain ⟨hws, _, _, _, _, _, _, _, hrb, hrc⟩ := digit_facts d hd
        exact ⟨d, ds, heq, hws, hrb, hrc⟩
  | str s =>
      simp [ser] at h
      exact ⟨'"', _, h.symm, by decide, by decide, by decide⟩
  | list xs =>
      simp only [ser] at h
      cases hsl : serList xs with
      | none => rw [hsl] at h; cases h
      | some parts =>
          rw [hsl] at h
          simp at h
          exact ⟨'\x5b', _, h.symm, by decide, by decide, by decide⟩
  | dict kvs =>
      simp only [ser] at h
      cases hsl : serKVs kvs with
      | none => rw [hsl] at h; cases h
      | some parts =>
          rw [hsl] at h
          simp at h
          exact ⟨'\x7b', _, h.symm, by decide, by decide, by decide⟩
  | obj t => simp [ser] at h

theorem skipWS_not_ws (c : Char) (cs : List Char) (h : wsChar c = false) :
    skipWS (c :: cs) = c :: cs := by
  simp [skipWS, h]

theorem skipWS_space (cs : List Char) : skipWS (' ' :: cs) = skipWS cs := by
  simp [skipWS, wsChar]

theorem parseVal_ws (fuel : Nat) (cs : List Char) :
    parseVal fuel (' ' :: cs) = parseVal fuel cs := by
  cases fuel with
  | zero => rfl
  | succ f =>
      simp only [parseVal]
      rw [skipWS_space]

theorem parseElems_ws (fuel : Nat) (cs : List Char) :
    parseElems fuel (' ' :: cs) = parseElems fuel cs := by
  cases fuel with
  | zero => rfl
  | succ f => simp only [parseElems, parseVal_ws]

theorem parseMembers_ws (fuel : Nat) (acc : List (String × PyObj))
    (cs : List Char) :
    parseMembers fuel acc (' ' :: cs) = parseMembers fuel acc cs := by
  cases fuel with
  | zero => rfl
  | succ f =>
      simp only [parseMembers]
      rw [skipWS_space]

theorem parseVal_null (f : Nat) (rest : List Char) :
    parseVal (f + 1) ('n' :: 'u' :: 'l' :: 'l' :: rest) =
      some (PyObj.none, rest) := by
  simp [parseVal, skipWS, wsChar]

theorem parseVal_true (f : Nat) (rest : List Char) :
    parseVal (f + 1) ('t' :: 'r' :: 'u' :: 'e' :: rest) =
      some (PyObj.bool true, rest) := by
  simp [parseVal, skipWS, wsChar]

theorem parseVal_false (f : Nat) (rest : List Char) :
    parseVal (f + 1) ('f' :: 'a' :: 'l' :: 's' :: 'e' :: rest) =
      some (PyObj.bool false, rest) := by
  simp [parseVal, skipWS, wsChar]

theorem parseVal_str (f : Nat) (rest : List Char) :
    parseVal (f + 1) ('"' :: rest) =
      (match parseStrChars (rest.length + 1) rest with
       | some (chars, rem) => some (PyObj.str (String.mk chars), rem)
       | Option.none => Option.none) := by
  simp [parseVal, skipWS, wsChar]

theorem parseVal_list (f : Nat) (rest : List Char) :
    parseVal (f + 1) ('\x5b' :: rest) =
      (match skipWS rest with
       | [] => Option.none
       | c2 :: rest2 =>
           if c2 = '\x5d' then some (PyObj.list [], rest2)
           else
             match parseElems f (c2 :: rest2) with
             | some (xs, rem) => some (PyObj.list xs, rem)
             | Option.none => Option.none) := by
  rw [show parseVal (f + 1) ('\x5b' :: rest) = parseVal (f + 1) ('\x5b' :: rest)
    from rfl]
  simp only [parseVal, skipWS_not_ws '\x5b' rest (by decide)]
  simp only [eq_false (show ¬(('\x5b' : Char) = 'n') by decide),
    eq_false (show ¬(('\x5b' : Char) = 't') by decide),
    eq_false (show ¬(('\x5b' : Char) = 'f') by decide),
    eq_false (show ¬(('\x5b' : Char) = '"') by decide),
    eq_true (show (('\x5b' : Char) = '\x5b') from rfl), ite_true, ite_false]

theorem parseVal_dict (f : Nat) (rest : List Char) :
    parseVal (f + 1) ('\x7b' :: rest) =
      (match skipWS rest with
       | [] => Option.none
       | c2 :: rest2 =>
           if c2 = '\x7d' then some (PyObj.dict [], rest2)
           else
             match parseMembers f [] (c2 :: rest2) with
             | some (kvs, rem) => some (PyObj.dict kvs, rem)
             | Option.none => Option.none) := by
  simp only [parseVal, skipWS_not_ws '\x7b' rest (by decide)]
  simp only [eq_false (show ¬(('\x7b' : Char) = 'n') by decide),
    eq_false (show ¬(('\x7b' : Char) = 't') by decide),
    eq_false (show ¬(('\x7b' : Char) = 'f') by decide),
    eq_false (show ¬(('\x7b' : Char) = '"') by decide),
    eq_false (show ¬(('\x7b' : Char) = '\x5b') by decide),
    eq_true (show (('\x7b' : Char) = '\x7b') from rfl), ite_true, ite_false]

theorem parseVal_neg (f : Nat) (rest : List Char) :
    parseVal (f + 1) ('-' :: rest) =
      (match rest with
       | d :: ds =>
           if isDigit d then
             match parseDigits (d :: ds) 0 with
             | (n, rem) => some (PyObj.int (-(n : Int)), rem)
           else Option.none
       | [] => Option.none) := by
  simp only [parseVal, skipWS_not_ws '-' rest (by decide)]
  simp only [eq_false (show ¬(('-' : Char) = 'n') by decide),
    eq_false (show ¬(('-' : Char) = 't') by decide),
    eq_false (show ¬(('-' : Char) = 'f') by decide),
    eq_false (show ¬(('-' : Char) = '"') by decide),
    eq_false (show ¬(('-' : Char) = '\x5b') by decide),
    eq_false (show ¬(('-' : Char) = '\x7b') by decide),
    eq_true (show (('-' : Char) = '-') from rfl), ite_true, ite_false]

theorem parseVal_digit (f : Nat) (d : Char) (rest : List Char)
    (hd : isDigit d = true) :
    parseVal (f + 1) (d :: rest) =
      (match parseDigits (d :: rest) 0 with
       | (n, rem) => some (PyObj.int (n : Int), rem)) := by
  obtain ⟨hws, hn, ht, hf2, hq, hlb, hlc, hm, _, _⟩ := digit_facts d hd
  simp only [parseVal, skipWS_not_ws d rest hws]
  simp only [eq_false hn, eq_false ht, eq_false hf2, eq_false hq,
    eq_false hlb, eq_false hlc, eq_false hm, eq_true hd, ite_true, ite_false]

set_option maxHeartbeats 1000000 in
theorem escChar_length_pos (c : Char) : 1 ≤ (escChar c).length := by
  simp only [escChar]
  split_ifs <;> simp [uEsc]

theorem escChars_length (l : List Char) : l.length ≤ (escChars l).length := by
  induction l with
  | nil => simp [escChars]
  | cons c cs ih =>
      have := escChar_length_pos c
      simp only [escChars, List.length_append, List.length_cons]
      omega

theorem String.mk_toList (s : String) : String.mk s.toList = s := rfl

theorem joinComma_head (p : List Char) (ps : List (List Char)) :
    joinComma (p :: ps) =
      p ++ (match ps with
            | [] => []
            | _ :: _ => ',' :: ' ' :: joinComma ps) := by
  cases ps <;> simp [joinComma]

/-- The statement that one value parses back from its serialization:
induction hypothesis shape for the round-trip proof. -/
def SV (v : PyObj) : Prop :=
  pywf v = true → ∀ cs rest fuel, ser v = some cs → pyFuel v ≤ fuel →
    noDigitHead rest → parseVal fuel (cs ++ rest) = some (v, rest)

theorem parse_elems_aux (xs : List PyObj) (hx : ∀ x ∈ xs, SV x)
    (hwf : pywfList xs = true) :
    ∀ parts rest fuel, xs ≠ [] → serList xs = some parts →
      pyFuelL xs ≤ fuel →
      parseElems fuel (joinComma parts ++ '\x5d' :: rest) = some (xs, rest) := by
  induction xs with
  | nil => intro parts rest fuel hne; exact absurd rfl hne
  | cons x xs ih =>
      intro parts rest fuel _ hsl hfuel
      simp only [serList] at hsl
      cases hsx : ser x with
      | none => rw [hsx] at hsl; cases hsl
      | some p =>
          cases hsl2 : serList xs with
          | none => rw [hsx, hsl2] at hsl; cases hsl
          | some ps =>
              rw [hsx, hsl2] at hsl
              simp at hsl
              subst hsl
              cases fuel with
              | zero => simp [pyFuelL] at hfuel
              | succ f =>
              have hfx : pyFuel x ≤ f := by
                simp only [pyFuelL] at hfuel
                omega
              have hwf2 : pywf x = true ∧ pywfList xs = true := by
                simpa [pywfList, Bool.and_eq_true] using hwf
              have hsvx := hx x (by simp) hwf2.1
              cases xs with
              | nil =>
                  simp only [serList, Option.some.injEq] at hsl2
                  subst hsl2
                  simp only [joinComma, List.append_assoc, List.cons_append,
                    List.nil_append]
                  have hv := hsvx p ('\x5d' :: rest) f hsx hfx
                    (by simp only [noDigitHead]; decide)
                  have hw := skipWS_not_ws '\x5d' rest (by decide)
                  simp only [parseElems, hv, hw]
              | cons y ys =>
                  have hps : ps ≠ [] := by
                    simp only [serList] at hsl2
                    cases hy : ser y with
                    | none => rw [hy] at hsl2; cases hsl2
                    | some py =>
                        cases hys : serList ys with
                        | none => rw [hy, hys] at hsl2; cases hsl2
                        | some pys =>
                            rw [hy, hys] at hsl2
                            simp at hsl2
                            simp [← hsl2]
                  rw [joinComma_head]
                  cases ps with
                  | nil => exact absurd rfl hps
                  | cons p2 ps2 =>
                  simp only [List.append_assoc, List.cons_append]
                  have hv := hsvx p (',' :: ' ' :: (joinComma (p2 :: ps2) ++
                    '\x5d' :: rest)) f hsx hfx
                    (by simp only [noDigitHead]; decide)
                  have hw := skipWS_not_ws ','
                    (' ' :: (joinComma (p2 :: ps2) ++ '\x5d' :: rest))
                    (by decide)
                  have hih := ih (fun z hz => hx z (by simp [hz])) hwf2.2
                    (p2 :: ps2) rest f (by simp) hsl2
                    (by simp only [pyFuelL] at hfuel ⊢; omega)
                  simp only [parseElems, hv, hw, parseElems_ws, hih]

theorem parse_members_aux (kvs : List (String × PyObj))
    (hx : ∀ kv ∈ kvs, SV kv.2) (hwf : pywfKVs kvs = true)
    (hnd : (kvs.map Prod.fst).Nodup) :
    ∀ parts rest fuel acc, kvs ≠ [] → serKVs kvs = some parts →
      pyFuelKV kvs ≤ fuel →
      (∀ k ∈ kvs.map Prod.fst, k ∉ acc.map Prod.fst) →
      parseMembers fuel acc (joinComma parts ++ '\x7d' :: rest) =
        some (acc ++ kvs, rest) := by
  induction kvs with
  | nil => intro parts rest fuel acc hne; exact absurd rfl hne
  | cons kv kvs ih =>
      obtain ⟨k, v⟩ := kv
      intro parts rest fuel acc _ hsl hfuel hfresh
      simp only [serKVs] at hsl
      cases hsx : ser v with
      | none => rw [hsx] at hsl; cases hsl
      | some p =>
          cases hsl2 : serKVs kvs with
          | none => rw [hsx, hsl2] at hsl; cases hsl
          | some ps =>
              rw [hsx, hsl2] at hsl
              simp at hsl
              subst hsl
              cases fuel with
              | zero => simp [pyFuelKV] at hfuel
              | succ f =>
              have hfx : pyFuel v ≤ f := by
                simp only [pyFuelKV] at hfuel
                omega
              have hwf2 : pywf v = true ∧ pywfKVs kvs = true := by
                simpa [pywfKVs, Bool.and_eq_true] using hwf
              have hsvx : ∀ cs rest fuel, ser v = some cs →
                  pyFuel v ≤ fuel → noDigitHead rest →
                  parseVal fuel (cs ++ rest) = some (v, rest) :=
                (hx (k, v) (by simp)) hwf2.1
              have hknotin : k ∉ acc.map Prod.fst := hfresh k (by simp)
              have hset : alistSet acc k v = acc ++ [(k, v)] :=
                alistSet_append acc k v hknotin
              have hmk : String.mk k.data = k := rfl
              simp only [List.map_cons, List.nodup_cons] at hnd
              cases kvs with
              | nil =>
                  simp only [serKVs, Option.some.injEq] at hsl2
                  subst hsl2
                  simp only [joinComma, List.append_assoc, List.cons_append,
                    List.nil_append]
                  have hwq := skipWS_not_ws '"'
                    (escChars k.data ++ '"' :: ':' :: ' ' ::
                      (p ++ '\x7d' :: rest)) (by decide)
                  have hstr := parseStr_esc k.data
                    ((escChars k.data ++ '"' :: ':' :: ' ' ::
                      (p ++ '\x7d' :: rest)).length + 1)
                    (':' :: ' ' :: (p ++ '\x7d' :: rest))
                    (by
                      have := escChars_length k.data
                      simp only [List.length_append, List.length_cons]
                      omega)
                  have hw2 := skipWS_not_ws ':' (' ' :: (p ++ '\x7d' :: rest))
                    (by decide)
                  have hv := hsvx p ('\x7d' :: rest) f hsx hfx
                    (by simp only [noDigitHead]; decide)
                  have hw3 := skipWS_not_ws '\x7d' rest (by decide)
                  simp only [parseMembers, hwq, hstr, hw2, parseVal_ws, hv,
                    hmk, hset, hw3]
              | cons kv2 kvs2 =>
                  have hps : ps ≠ [] := by
                    obtain ⟨k2, v2⟩ := kv2
                    simp only [serKVs] at hsl2
                    cases hy : ser v2 with
                    | none => rw [hy] at hsl2; cases hsl2
                    | some py =>
                        cases hys : serKVs kvs2 with
                        | none => rw [hy, hys] at hsl2; cases hsl2
                        | some pys =>
                            rw [hy, hys] at hsl2
                            simp at hsl2
                            simp [← hsl2]
                  rw [joinComma_head]
                  cases ps with
                  | nil => exact absurd rfl hps
                  | cons p2 ps2 =>
                  simp only [List.append_assoc, List.cons_append,
                    List.nil_append]
                  have hwq := skipWS_not_ws '"'
                    (escChars k.data ++ '"' :: ':' :: ' ' ::
                      (p ++ ',' :: ' ' :: (joinComma (p2 :: ps2) ++
                        '\x7d' :: rest))) (by decide)
                  have hstr := parseStr_esc k.data
                    ((escChars k.data ++ '"' :: ':' :: ' ' ::
                      (p ++ ',' :: ' ' :: (joinComma (p2 :: ps2) ++
                        '\x7d' :: rest))).length + 1)
                    (':' :: ' ' :: (p ++ ',' :: ' ' ::
                      (joinComma (p2 :: ps2) ++ '\x7d' :: rest)))
                    (by
                      have := escChars_length k.data
                      simp only [List.length_append, List.length_cons]
                      omega)
                  have hw2 := skipWS_not_ws ':'
                    (' ' :: (p ++ ',' :: ' ' :: (joinComma (p2 :: ps2) ++
                      '\x7d' :: rest))) (by decide)
                  have hv := hsvx p (',' :: ' ' :: (joinComma (p2 :: ps2) ++
                    '\x7d' :: rest)) f hsx hfx
                    (by simp only [noDigitHead]; decide)
                  have hwc := skipWS_not_ws ','
                    (' ' :: (joinComma (p2 :: ps2) ++ '\x7d' :: rest))
                    (by decide)
                  have hih := ih (fun z hz => hx z (by simp [hz])) hwf2.2
                    hnd.2 (p2 :: ps2) rest f (acc ++ [(k, v)]) (by simp) hsl2
                    (by simp only [pyFuelKV] at hfuel ⊢; omega)
                    (by
                      intro k2 hk2 hk2in
                      simp only [List.map_append, List.mem_append] at hk2in
                      rcases hk2in with h | h
                      · exact hfresh k2
                          (by
                            simp only [List.map_cons]
                            exact List.mem_cons_of_mem _ hk2) h
                      · simp at h
                        subst h
                        exact hnd.1 hk2)
                  simp only [parseMembers, hwq, hstr, hw2, parseVal_ws, hv,
                    hmk, hset, hwc, parseMembers_ws, hih]
                  simp

theorem pywfList_iff (xs : List PyObj) :
    pywfList xs = true ↔ ∀ x ∈ xs, pywf x = true := by
  induction xs with
  | nil => simp [pywfList]
  | cons x xs ih => simp [pywfList, ih]

theorem pywfKVs_iff (kvs : List (String × PyObj)) :
    pywfKVs kvs = true ↔ ∀ kv ∈ kvs, pywf kv.2 = true := by
  induction kvs with
  | nil => simp [pywfKVs]
  | cons kv kvs ih =>
      obtain ⟨k, v⟩ := kv
      simp [pywfKVs, ih]

theorem sval_all : ∀ v : PyObj, SV v := by
  apply pyRec
  intro v ih
  intro hwf cs rest fuel hser hfuel hrest
  cases v with
  | none =>
      simp only [ser, Option.some.injEq] at hser
      subst hser
      cases fuel with
      | zero => simp [pyFuel] at hfuel
      | succ f =>
          rw [show ("null".toList : List Char) = ['n', 'u', 'l', 'l'] from rfl]
          simp only [List.cons_append, List.nil_append]
          exact parseVal_null f rest
  | bool b =>
      cases fuel with
      | zero => simp [pyFuel] at hfuel
      | succ f =>
          cases b with
          | true =>
              simp only [ser, Option.some.injEq] at hser
              subst hser
              rw [show ("true".toList : List Char) = ['t', 'r', 'u', 'e']
                from rfl]
              simp only [List.cons_append, List.nil_append]
              exact parseVal_true f rest
          | false =>
              simp only [ser, Option.some.injEq] at hser
              subst hser
              rw [show ("false".toList : List Char) =
                ['f', 'a', 'l', 's', 'e'] from rfl]
              simp only [List.cons_append, List.nil_append]
              exact parseVal_false f rest
  | int n =>
      simp only [ser, Option.some.injEq] at hser
      subst hser
      cases fuel with
      | zero => simp [pyFuel] at hfuel
      | succ f =>
      by_cases hn : n < 0
      · obtain ⟨d, ds, heq, hd⟩ := natChars_head n.natAbs
        simp only [intChars, hn, ite_true, List.cons_append]
        rw [parseVal_neg, heq, List.cons_append]
        have h1 : parseDigits (d :: (ds ++ rest)) 0 = (n.natAbs, rest) := by
          rw [← List.cons_append, ← heq]
          exact parseDigits_natChars _ _ hrest
        simp only [eq_true hd, ite_true, h1]
        rw [show (-(n.natAbs : Int)) = n from by omega]
      · obtain ⟨d, ds, heq, hd⟩ := natChars_head n.toNat
        simp only [intChars, hn, ite_false]
        rw [heq, List.cons_append, parseVal_digit f d _ hd]
        have h1 : parseDigits (d :: (ds ++ rest)) 0 = (n.toNat, rest) := by
          rw [← List.cons_append, ← heq]
          exact parseDigits_natChars _ _ hrest
        simp only [h1]
        rw [show ((n.toNat : Int)) = n from by omega]
  | str s =>
      simp only [ser, Option.some.injEq] at hser
      subst hser
      cases fuel with
      | zero => simp [pyFuel] at hfuel
      | succ f =>
      simp only [List.cons_append, List.append_assoc, List.nil_append]
      rw [parseVal_str]
      have hstr := parseStr_esc s.toList
        ((escChars s.toList ++ '"' :: rest).length + 1) rest
        (by
          have := escChars_length s.toList
          simp only [List.length_append, List.length_cons]
          omega)
      simp only [hstr, String.mk_toList]
  | obj t => simp [ser] at hser
  | list xs =>
      simp only [ser] at hser
      cases hsl : serList xs with
      | none => rw [hsl] at hser; cases hser
      | some parts =>
      rw [hsl] at hser
      simp only [Option.some.injEq] at hser
      subst hser
      cases fuel with
      | zero => simp [pyFuel] at hfuel
      | succ f =>
      simp only [pywf] at hwf
      have hfl : pyFuelL xs ≤ f := by
        simp only [pyFuel] at hfuel
        omega
      simp only [List.cons_append, List.append_assoc, List.nil_append]
      rw [parseVal_list]
      cases xs with
      | nil =>
          simp only [serList, Option.some.injEq] at hsl
          subst hsl
          simp only [joinComma, List.nil_append]
          have hw := skipWS_not_ws '\x5d' rest (by decide)
          simp only [hw, ite_true]
      | cons y ys =>
          simp only [serList] at hsl
          cases hy : ser y with
          | none => rw [hy] at hsl; cases hsl
          | some py =>
              cases hys : serList ys with
              | none => rw [hy, hys] at hsl; cases hsl
              | some pys =>
                  rw [hy, hys] at hsl
                  simp only [Option.some.injEq] at hsl
                  subst hsl
                  obtain ⟨c0, py2, hpy, hws0, hnotb, _⟩ := ser_head y py hy
                  have helems := parse_elems_aux (y :: ys)
                    (fun z hz => ih z (sizeOf_mem_list hz)) hwf
                    (py :: pys) rest f (by simp)
                    (by simp only [serList, hy, hys]) hfl
                  cases pys with
                  | nil =>
                      have hback : joinComma [py] ++ '\x5d' :: rest =
                          c0 :: (py2 ++ '\x5d' :: rest) := by
                        rw [hpy]
                        simp [joinComma]
                      rw [hback]
                      rw [hback] at helems
                      have hw := skipWS_not_ws c0 (py2 ++ '\x5d' :: rest) hws0
                      simp only [hw, eq_false hnotb, ite_false, helems]
                  | cons p2 ps2 =>
                      have hback : joinComma (py :: p2 :: ps2) ++
                          '\x5d' :: rest =
                          c0 :: (py2 ++ (',' :: ' ' ::
                            (joinComma (p2 :: ps2) ++ '\x5d' :: rest))) := by
                        rw [hpy]
                        simp [joinComma, List.append_assoc]
                      rw [hback]
                      rw [hback] at helems
                      have hw := skipWS_not_ws c0 (py2 ++ (',' :: ' ' ::
                        (joinComma (p2 :: ps2) ++ '\x5d' :: rest))) hws0
                      simp only [hw, eq_false hnotb, ite_false, helems]
  | dict kvs =>
      simp only [ser] at hser
      cases hsl : serKVs kvs with
      | none => rw [hsl] at hser; cases hser
      | some parts =>
      rw [hsl] at hser
      simp only [Option.some.injEq] at hser
      subst hser
      cases fuel with
      | zero => simp [pyFuel] at hfuel
      | succ f =>
      simp only [pywf, Bool.and_eq_true] at hwf
      have hnd : (kvs.map Prod.fst).Nodup := (nodupStr_iff _).mp hwf.1
      have hfl : pyFuelKV kvs ≤ f := by
        simp only [pyFuel] at hfuel
        omega
      simp only [List.cons_append, List.append_assoc, List.nil_append]
      rw [parseVal_dict]
      cases kvs with
      | nil =>
          simp only [serKVs, Option.some.injEq] at hsl
          subst hsl
          simp only [joinComma, List.nil_append]
          have hw := skipWS_not_ws '\x7d' rest (by decide)
          simp only [hw, ite_true]
      | cons kv kvs2 =>
          obtain ⟨k, v0⟩ := kv
          simp only [serKVs] at hsl
          cases hy : ser v0 with
          | none => rw [hy] at hsl; cases hsl
          | some pv =>
              cases hys : serKVs kvs2 with
              | none => rw [hy, hys] at hsl; cases hsl
              | some pys =>
                  rw [hy, hys] at hsl
                  simp only [Option.some.injEq] at hsl
                  subst hsl
                  have hmem := parse_members_aux ((k, v0) :: kvs2)
                    (fun z hz => ih z.2 (sizeOf_mem_dict hz)) hwf.2 hnd
                    ((('"' :: (escChars k.toList ++ ['"', ':', ' '])) ++ pv)
                      :: pys) rest f [] (by simp)
                    (by simp only [serKVs, hy, hys]) hfl (by simp)
                  cases pys with
                  | nil =>
                      have hback : joinComma [('"' :: (escChars k.toList ++
                          ['"', ':', ' '])) ++ pv] ++ '\x7d' :: rest =
                          '"' :: ((escChars k.toList ++ ['"', ':', ' ']) ++
                            (pv ++ '\x7d' :: rest)) := by
                        simp [joinComma, List.append_assoc]
                      rw [hback]
                      rw [hback] at hmem
                      have hw := skipWS_not_ws '"' ((escChars k.toList ++
                        ['"', ':', ' ']) ++ (pv ++ '\x7d' :: rest))
                        (by decide)
                      simp only [hw, eq_false (show ¬(('"' : Char) = '\x7d')
                        by decide), ite_false, hmem, List.nil_append]
                  | cons p2 ps2 =>
                      have hback : joinComma (((('"' :: (escChars k.toList ++
                          ['"', ':', ' '])) ++ pv)) :: p2 :: ps2) ++
                          '\x7d' :: rest =
                          '"' :: ((escChars k.toList ++ ['"', ':', ' ']) ++
                            (pv ++ (',' :: ' ' :: (joinComma (p2 :: ps2) ++
                              '\x7d' :: rest)))) := by
                        simp [joinComma, List.append_assoc]
                      rw [hback]
                      rw [hback] at hmem
                      have hw := skipWS_not_ws '"' ((escChars k.toList ++
                        ['"', ':', ' ']) ++ (pv ++ (',' :: ' ' ::
                          (joinComma (p2 :: ps2) ++ '\x7d' :: rest))))
                        (by decide)
                      simp only [hw, eq_false (show ¬(('"' : Char) = '\x7d')
                        by decide), ite_false, hmem, List.nil_append]

theorem json_loads_json_dumps (v : PyObj) (hwf : pywf v = true) (s : String)
    (hd : json_dumps false v = some s) : json_loads s = some v := by
  have hd2 : (match ser v with
      | some cs => some (String.mk cs)
      | Option.none => Option.none) = some s := by
    simpa [json_dumps] using hd
  cases hser : ser v with
  | none => rw [hser] at hd2; cases hd2
  | some cs =>
      rw [hser] at hd2
      simp only [Option.some.injEq] at hd2
      subst hd2
      unfold json_loads
      have htl : (String.mk cs).toList = cs := rfl
      have hlen : (String.mk cs).length = cs.length := rfl
      rw [htl, hlen]
      have hsv := sval_all v hwf cs [] (cs.length + 1) hser
        (le_trans (pyFuel_bound v cs hser) (by omega)) trivial
      rw [List.append_nil] at hsv
      simp [hsv, skipWS]

/-! ### Bridging well-formedness and serializability -/

theorem pywf_serializable : ∀ v : PyObj, pywf v = true → serializable v = true := by
  apply pyRec
  intro v ih
  cases v with
  | none => intro h; rfl
  | bool b => intro h; rfl
  | int n => intro h; rfl
  | str s => intro h; rfl
  | obj t => intro h; simp [pywf] at h
  | list xs =>
      intro h
      simp only [pywf] at h
      simp only [serializable]
      rw [serializableList_iff]
      intro x hx
      exact ih x (sizeOf_mem_list hx) ((pywfList_iff xs).mp h x hx)
  | dict kvs =>
      intro h
      simp only [pywf, Bool.and_eq_true] at h
      simp only [serializable]
      rw [serializableKVs_iff]
      intro kv hkv
      exact ih kv.2 (sizeOf_mem_dict hkv) ((pywfKVs_iff kvs).mp h.2 kv hkv)

theorem json_dumps_of_pywf (v : PyObj) (hwf : pywf v = true) :
    ∃ s, json_dumps false v = some s := by
  have h := json_dumps_isSome false v
  rw [pywf_serializable v hwf] at h
  exact Option.isSome_iff_exists.mp h

theorem json_dumps_ne_empty (v : PyObj) (s : String)
    (hd : json_dumps false v = some s) : s ≠ "" := by
  have hd2 : (match ser v with
      | some cs => some (String.mk cs)
      | Option.none => Option.none) = some s := by
    simpa [json_dumps] using hd
  cases hser : ser v with
  | none => rw [hser] at hd2; cases hd2
  | some cs =>
      rw [hser] at hd2
      simp only [Option.some.injEq] at hd2
      subst hd2
      have := ser_length_pos v cs hser
      intro hcon
      have : cs = [] := by
        have := congrArg String.data hcon
        simpa using this
      subst this
      simp at *

/-! ### Claim C2: round trip on both backends -/

/-- C2: with caching enabled, `save_to_cache(k, v)` followed immediately
by `get_from_cache(k)` returns the saved payload, on both backends: on
the local dict this holds for every payload; on redis it holds whenever
the backend operations succeed, i.e. the payload is a serializable
well-formed Python value and neither call hits a network failure. -/
theorem cache_roundtrip (cm : CacheManager) (netOk netOk2 : Bool)
    (k : String) (v : PyObj) (hen : cm.cache_enabled = true)
    (hredis : cm.use_redis = true →
      pywf v = true ∧ netOk = true ∧ netOk2 = true) :
    get_from_cache (save_to_cache cm netOk k v).2 netOk2 k = v := by
  by_cases hur : cm.use_redis = true
  · obtain ⟨hwf, hn1, hn2⟩ := hredis hur
    subst hn1
    subst hn2
    obtain ⟨s, hs⟩ := json_dumps_of_pywf v hwf
    have hne := json_dumps_ne_empty v s hs
    have hloads := json_loads_json_dumps v hwf s hs
    simp [save_to_cache, get_from_cache, hen, hur, hs, alistGet_set_self,
      hne, hloads]
  · have hur2 : cm.use_redis = false := by simpa using hur
    simp [save_to_cache, get_from_cache, hen, hur2, alistGet_set_self]

/-- Instance of `cache_roundtrip` on a redis-backed manager with a
concrete payload. -/
theorem cache_roundtrip_witness :
    (CacheManager.mk true true 3600 [] []).cache_enabled = true ∧
    pywf (PyObj.dict [("x", PyObj.int 1), ("y", PyObj.str "hi")]) = true ∧
    get_from_cache
      (save_to_cache (CacheManager.mk true true 3600 [] []) true "k"
        (PyObj.dict [("x", PyObj.int 1), ("y", PyObj.str "hi")])).2
      true "k" = PyObj.dict [("x", PyObj.int 1), ("y", PyObj.str "hi")] :=
  ⟨rfl, by rfl,
   cache_roundtrip (CacheManager.mk true true 3600 [] []) true true "k"
     (PyObj.dict [("x", PyObj.int 1), ("y", PyObj.str "hi")]) rfl
     (fun _ => ⟨by rfl, rfl, rfl⟩)⟩

/-! ### Claim C4: disabled cache short-circuits -/

/-- C4: with `cache_enabled = false`, every `get_from_cache` returns
`None` and every `save_to_cache` returns false with the state (both
backends) untouched, irrespective of backend health (`netOk` is
arbitrary and never consulted). -/
theorem cache_disabled (cm : CacheManager) (hdis : cm.cache_enabled = false) :
    ∀ netOk k v, get_from_cache cm netOk k = PyObj.none ∧
      save_to_cache cm netOk k v = (false, cm) := by
  intro netOk k v
  constructor
  · simp [get_from_cache, hdis]
  · simp [save_to_cache, hdis]

/-- Instance of `cache_disabled` on a concrete manager. -/
theorem cache_disabled_witness :
    (CacheManager.mk true false 3600 [("a", ("1", 5))] []).cache_enabled
      = false ∧
    (get_from_cache (CacheManager.mk true false 3600 [("a", ("1", 5))] [])
      true "a" = PyObj.none ∧
     save_to_cache (CacheManager.mk true false 3600 [("a", ("1", 5))] [])
      true "a" (PyObj.int 7) =
      (false, CacheManager.mk true false 3600 [("a", ("1", 5))] [])) :=
  ⟨rfl, cache_disabled (CacheManager.mk true false 3600 [("a", ("1", 5))] [])
    rfl true "a" (PyObj.int 7)⟩

/-! ### Claim C3: backend failures degrade, never raise -/

/-- C3: with caching enabled on the redis backend, a backend failure is
absorbed rather than surfaced: a failed read makes `get_from_cache`
return `None`, a failed write makes `save_to_cache` return false, a
failed delete makes `invalidate_cache` return false; a serialization
failure during a save likewise yields false, and corrupted stored text
that `json.loads` cannot parse makes the read return `None`. -/
theorem cache_backend_failure (cm : CacheManager) (k k2 : String)
    (v v2 : PyObj) (okey : Option String) (netOk : Bool)
    (hen : cm.cache_enabled = true) (hur : cm.use_redis = true) :
    get_from_cache cm false k = PyObj.none ∧
    (save_to_cache cm false k v).1 = false ∧
    (invalidate_cache cm false okey).1 = false ∧
    (serializable v2 = false → (save_to_cache cm netOk k v2).1 = false) ∧
    (∀ s t, alistGet cm.redis_store k2 = some (s, t) →
      json_loads s = Option.none →
      get_from_cache cm true k2 = PyObj.none) := by
  refine ⟨?_, ?_, ?_, ?_, ?_⟩
  · simp [get_from_cache, hen, hur]
  · cases hd : json_dumps false v <;> simp [save_to_cache, hen, hur, hd]
  · cases okey <;> simp [invalidate_cache, hen, hur]
  · intro hns
    have hd : json_dumps false v2 = Option.none := by
      cases hd : json_dumps false v2 with
      | none => rfl
      | some s =>
          exfalso
          have h2 := json_dumps_isSome false v2
          rw [hd, hns] at h2
          simp at h2
    simp [save_to_cache, hen, hur, hd]
  · intro s t hget hload
    by_cases hs : s = ""
    · subst hs
      simp [get_from_cache, hen, hur, hget]
    · simp [get_from_cache, hen, hur, hget, hs, hload]

/-- Instance of `cache_backend_failure` on a concrete manager whose
store also holds unparseable text. -/
theorem cache_backend_failure_witness :
    get_from_cache
      (CacheManager.mk true true 3600 [("kk", ("not json", 3600))] [])
      false "a" = PyObj.none ∧
    (save_to_cache
      (CacheManager.mk true true 3600 [("kk", ("not json", 3600))] [])
      false "a" (PyObj.int 1)).1 = false ∧
    (invalidate_cache
      (CacheManager.mk true true 3600 [("kk", ("not json", 3600))] [])
      false (some "a")).1 = false ∧
    (save_to_cache
      (CacheManager.mk true true 3600 [("kk", ("not json", 3600))] [])
      true "a" (PyObj.obj "set")).1 = false ∧
    get_from_cache
      (CacheManager.mk true true 3600 [("kk", ("not json", 3600))] [])
      true "kk" = PyObj.none :=
  have h := cache_backend_failure
    (CacheManager.mk true true 3600 [("kk", ("not json", 3600))] [])
    "a" "kk" (PyObj.int 1) (PyObj.obj "set") (some "a") true rfl rfl
  ⟨h.1, h.2.1, h.2.2.1, h.2.2.2.1 rfl,
   h.2.2.2.2 "not json" 3600 rfl (by rfl)⟩

/-! ### Claim C5: invalidation removes entries -/

/-- C5: with caching enabled and a healthy backend, after
`invalidate_cache(k)` a `get_from_cache(k)` returns `None`; after a
global `invalidate_cache()` every key reads back `None`; and
invalidating a key absent from the active store still reports
success. -/
theorem cache_invalidate_then_get (cm : CacheManager)
    (netOk netOk2 : Bool) (k : String) (hen : cm.cache_enabled = true)
    (hnet : cm.use_redis = true → netOk = true ∧ netOk2 = true)
    (hndR : (cm.redis_store.map Prod.fst).Nodup)
    (hndM : (cm.memory_cache.map Prod.fst).Nodup) :
    get_from_cache (invalidate_cache cm netOk (some k)).2 netOk2 k
      = PyObj.none ∧
    (∀ k2, get_from_cache (invalidate_cache cm netOk Option.none).2
      netOk2 k2 = PyObj.none) ∧
    ((invalidate_cache cm netOk (some k)).1 = true) := by
  by_cases hur : cm.use_redis = true
  · obtain ⟨hn1, hn2⟩ := hnet hur
    subst hn1
    subst hn2
    refine ⟨?_, ?_, ?_⟩
    · simp [invalidate_cache, get_from_cache, hen, hur,
        alistGet_del_self _ _ hndR]
    · intro k2
      simp [invalidate_cache, get_from_cache, hen, hur, alistGet]
    · simp [invalidate_cache, hen, hur]
  · have hur2 : cm.use_redis = false := by simpa using hur
    refine ⟨?_, ?_, ?_⟩
    · simp [invalidate_cache, get_from_cache, hen, hur2,
        alistGet_del_self _ _ hndM]
    · intro k2
      simp [invalidate_cache, get_from_cache, hen, hur2, alistGet]
    · simp [invalidate_cache, hen, hur2]

/-- Instance of `cache_invalidate_then_get` on a concrete redis-backed
manager; the invalidated key "b" is absent from the store, yet the call
reports success. -/
theorem cache_invalidate_then_get_witness :
    alistGet [("a", ("7", 10))] "b" = (Option.none : Option (String × Nat)) ∧
    get_from_cache
      (invalidate_cache (CacheManager.mk true true 3600 [("a", ("7", 10))] [])
        true (some "b")).2 true "b" = PyObj.none ∧
    get_from_cache
      (invalidate_cache (CacheManager.mk true true 3600 [("a", ("7", 10))] [])
        true Option.none).2 true "a" = PyObj.none ∧
    (invalidate_cache (CacheManager.mk true true 3600 [("a", ("7", 10))] [])
      true (some "b")).1 = true :=
  have h := cache_invalidate_then_get
    (CacheManager.mk true true 3600 [("a", ("7", 10))] []) true true "b"
    rfl (fun _ => ⟨rfl, rfl⟩) (by simp) (by simp)
  ⟨rfl, h.1, h.2.1 "a", h.2.2⟩

/-! ### Claim C6: fallback to the local backend on connection failure -/

/-- C6: constructing with `use_redis = True` and `REDIS_URL` set but
`redis.from_url` raising does not crash: the instance falls back to the
in-memory dict (`use_redis = false`), and every subsequent save succeeds
and reads back in-process — returning true, then the stored value on a
get — without touching the external redis store, irrespective of network
health. -/
theorem cache_init_fallback (enable_cache : Option String) (ttl : Nat)
    (redis0 : List (String × (String × Nat)))
    (hen : (strLower (enable_cache.getD "true") == "true") = true) :
    (cacheInit true true enable_cache ttl false redis0).use_redis
      = false ∧
    ∀ netOk netOk2 k v,
      (save_to_cache (cacheInit true true enable_cache ttl false redis0)
        netOk k v).1 = true ∧
      get_from_cache (save_to_cache (cacheInit true true enable_cache
        ttl false redis0) netOk k v).2 netOk2 k = v ∧
      (save_to_cache (cacheInit true true enable_cache ttl false redis0)
        netOk k v).2.redis_store = redis0 := by
  have hC : cacheInit true true enable_cache ttl false redis0
      = ⟨false, true, ttl, redis0, []⟩ := by
    simp [cacheInit, hen]
  rw [hC]
  refine ⟨rfl, ?_⟩
  intro netOk netOk2 k v
  refine ⟨by simp [save_to_cache], ?_, by simp [save_to_cache]⟩
  simp [save_to_cache, get_from_cache, alistGet_set_self]

/-- Instance of `cache_init_fallback` with a mixed-case flag text and a
nonempty external store; network health is false throughout. -/
theorem cache_init_fallback_witness :
    (strLower ((some "TRUE").getD "true") == "true") = true ∧
    (cacheInit true true (some "TRUE") 5 false
      [("z", ("9", 1))]).use_redis = false ∧
    (save_to_cache (cacheInit true true (some "TRUE") 5 false
      [("z", ("9", 1))]) false "a" (PyObj.str "hi")).1 = true ∧
    get_from_cache (save_to_cache (cacheInit true true (some "TRUE") 5
      false [("z", ("9", 1))]) false "a" (PyObj.str "hi")).2 false "a"
      = PyObj.str "hi" ∧
    (save_to_cache (cacheInit true true (some "TRUE") 5 false
      [("z", ("9", 1))]) false "a" (PyObj.str "hi")).2.redis_store
      = [("z", ("9", 1))] :=
  have h := cache_init_fallback (some "TRUE") 5 [("z", ("9", 1))]
    (by decide)
  ⟨by decide, h.1, (h.2 false false "a" (PyObj.str "hi")).1,
   (h.2 false false "a" (PyObj.str "hi")).2.1,
   (h.2 false false "a" (PyObj.str "hi")).2.2⟩

/-! ### Claim C7: no TTL expiry on the local backend -/

/-- C7: on the in-memory backend with caching enabled, a saved entry
persists indefinitely: after `save_to_cache(k, v)`, any interleaved
sequence of gets, stats calls, and saves to other keys — each standing
for arbitrary elapsed time, since no clock is consulted — leaves
`get_from_cache(k)` returning `v`; only an explicit invalidation could
remove it. -/
theorem local_cache_no_expiry (cm : CacheManager) (netOk netOk2 : Bool)
    (k : String) (v : PyObj) (ops : List CacheOp)
    (hur : cm.use_redis = false) (hen : cm.cache_enabled = true)
    (hops : ∀ op ∈ ops, avoidsKey k op) :
    get_from_cache (applyOps (save_to_cache cm netOk k v).2 ops) netOk2 k
      = v := by
  have key : ∀ (ops : List CacheOp), (∀ op ∈ ops, avoidsKey k op) →
      ∀ (cm' : CacheManager), cm'.use_redis = false →
      cm'.cache_enabled = true → alistGet cm'.memory_cache k = some v →
      (applyOps cm' ops).use_redis = false ∧
      (applyOps cm' ops).cache_enabled = true ∧
      alistGet (applyOps cm' ops).memory_cache k = some v := by
    intro ops
    induction ops with
    | nil => intro _ cm' h1 h2 h3; exact ⟨h1, h2, h3⟩
    | cons op rest ih =>
        intro hav cm' h1 h2 h3
        have havop : avoidsKey k op := hav op (List.mem_cons_self _ _)
        have havrest : ∀ o ∈ rest, avoidsKey k o :=
          fun o ho => hav o (List.mem_cons_of_mem _ ho)
        cases op with
        | opGet n kk =>
            simp only [applyOps, applyOp]
            exact ih havrest cm' h1 h2 h3
        | opStats n =>
            simp only [applyOps, applyOp]
            exact ih havrest cm' h1 h2 h3
        | opSave n kk vv =>
            have hne : kk ≠ k := havop
            simp only [applyOps, applyOp]
            apply ih havrest
            · simp [save_to_cache, h2, h1]
            · simp [save_to_cache, h2, h1]
            · simp [save_to_cache, h2, h1,
                alistGet_set_ne _ _ _ _ hne, h3]
  have h := key ops hops (save_to_cache cm netOk k v).2
    (by simp [save_to_cache, hen, hur])
    (by simp [save_to_cache, hen, hur])
    (by simp [save_to_cache, hen, hur, alistGet_set_self])
  simp [get_from_cache, h.1, h.2.1, h.2.2]

/-- Instance of `local_cache_no_expiry`: a save of key "a" survives a
save to "b", a read, and a stats call. -/
theorem local_cache_no_expiry_witness :
    (∀ op ∈ [CacheOp.opSave true "b" (PyObj.int 2),
      CacheOp.opGet true "a", CacheOp.opStats true], avoidsKey "a" op) ∧
    get_from_cache
      (applyOps (save_to_cache (CacheManager.mk false true 3600 [] [])
        true "a" (PyObj.int 1)).2
        [CacheOp.opSave true "b" (PyObj.int 2),
         CacheOp.opGet true "a", CacheOp.opStats true]) true "a"
      = PyObj.int 1 := by
  have hops : ∀ op ∈ [CacheOp.opSave true "b" (PyObj.int 2),
      CacheOp.opGet true "a", CacheOp.opStats true], avoidsKey "a" op := by
    intro op hop
    rcases List.mem_cons.mp hop with rfl | hop
    · exact (by decide : ("b" : String) ≠ "a")
    rcases List.mem_cons.mp hop with rfl | hop
    · exact trivial
    rcases List.mem_cons.mp hop with rfl | hop
    · exact trivial
    · cases hop
  exact ⟨hops, local_cache_no_expiry (CacheManager.mk false true 3600 [] [])
    true true "a" (PyObj.int 1) _ rfl rfl hops⟩

/-! ### Claim C9: operations only touch their own key -/

/-- C9: for distinct keys `k1 ≠ k2`, a save to `k1` and a single-key
invalidation of `k1` leave what `get_from_cache(k2)` observes unchanged
(on either backend, in any health state), and a get never changes the
cache state at all. -/
theorem cache_frame (cm : CacheManager) (netOk netOk2 : Bool)
    (k1 k2 : String) (v : PyObj) (hne : k1 ≠ k2) :
    get_from_cache (save_to_cache cm netOk k1 v).2 netOk2 k2
      = get_from_cache cm netOk2 k2 ∧
    get_from_cache (invalidate_cache cm netOk (some k1)).2 netOk2 k2
      = get_from_cache cm netOk2 k2 ∧
    (∀ netOk3 k3, applyOp cm (CacheOp.opGet netOk3 k3) = cm) := by
  refine ⟨?_, ?_, fun _ _ => rfl⟩
  · by_cases hen : cm.cache_enabled = true
    · by_cases hur : cm.use_redis = true
      · cases hd : json_dumps false v with
        | none => simp [save_to_cache, hen, hur, hd]
        | some s =>
            cases netOk with
            | false => simp [save_to_cache, hen, hur, hd]
            | true =>
                simp [save_to_cache, get_from_cache, hen, hur, hd,
                  alistGet_set_ne _ _ _ _ hne]
      · have hur2 : cm.use_redis = false := by simpa using hur
        simp [save_to_cache, get_from_cache, hen, hur2,
          alistGet_set_ne _ _ _ _ hne]
    · have hen2 : cm.cache_enabled = false := by simpa using hen
      simp [save_to_cache, hen2]
  · by_cases hen : cm.cache_enabled = true
    · by_cases hur : cm.use_redis = true
      · cases netOk with
        | false => simp [invalidate_cache, hen, hur]
        | true =>
            simp [invalidate_cache, get_from_cache, hen, hur,
              alistGet_del_ne _ _ _ hne]
      · have hur2 : cm.use_redis = false := by simpa using hur
        simp [invalidate_cache, get_from_cache, hen, hur2,
          alistGet_del_ne _ _ _ hne]
    · have hen2 : cm.cache_enabled = false := by simpa using hen
      simp [invalidate_cache, hen2]

/-- Instance of `cache_frame` on a redis-backed manager holding "k2". -/
theorem cache_frame_witness :
    ("k1" : String) ≠ "k2" ∧
    get_from_cache
      (save_to_cache (CacheManager.mk true true 3600 [("k2", ("3", 7))] [])
        true "k1" (PyObj.int 5)).2 true "k2"
      = get_from_cache (CacheManager.mk true true 3600 [("k2", ("3", 7))] [])
        true "k2" ∧
    get_from_cache
      (invalidate_cache
        (CacheManager.mk true true 3600 [("k2", ("3", 7))] [])
        true (some "k1")).2 true "k2"
      = get_from_cache (CacheManager.mk true true 3600 [("k2", ("3", 7))] [])
        true "k2" ∧
    applyOp (CacheManager.mk true true 3600 [("k2", ("3", 7))] [])
      (CacheOp.opGet true "k2")
      = CacheManager.mk true true 3600 [("k2", ("3", 7))] [] :=
  have h := cache_frame (CacheManager.mk true true 3600 [("k2", ("3", 7))] [])
    true true "k1" "k2" (PyObj.int 5) (by decide)
  ⟨by decide, h.1, h.2.1, h.2.2 true "k2"⟩

/-! ### Claim C10: backend divergence on non-serializable payloads -/

/-- C10: with caching enabled and a payload that `json.dumps` rejects,
the local backend stores the object as-is and reports success — the
payload is reachable again by a get — while the redis backend catches
the serialization failure, reports false, and leaves the state
untouched. -/
theorem save_nonserializable_divergence (cm : CacheManager)
    (netOk netOk2 : Bool) (k : String) (v : PyObj)
    (hen : cm.cache_enabled = true) (hns : serializable v = false) :
    (cm.use_redis = false →
      (save_to_cache cm netOk k v).1 = true ∧
      alistGet (save_to_cache cm netOk k v).2.memory_cache k = some v ∧
      get_from_cache (save_to_cache cm netOk k v).2 netOk2 k = v) ∧
    (cm.use_redis = true → save_to_cache cm netOk k v = (false, cm)) := by
  have hd : json_dumps false v = Option.none := by
    cases hd : json_dumps false v with
    | none => rfl
    | some s =>
        exfalso
        have h2 := json_dumps_isSome false v
        rw [hd, hns] at h2
        simp at h2
  constructor
  · intro hur
    refine ⟨by simp [save_to_cache, hen, hur],
      by simp [save_to_cache, hen, hur, alistGet_set_self],
      by simp [save_to_cache, get_from_cache, hen, hur, alistGet_set_self]⟩
  · intro hur
    simp [save_to_cache, hen, hur, hd]

/-- Instance of `save_nonserializable_divergence` with a payload
embedding a Python `set` object, on a local and a redis manager. -/
theorem save_nonserializable_divergence_witness :
    serializable (PyObj.obj "set") = false ∧
    (save_to_cache (CacheManager.mk false true 3600 [] []) true "k"
      (PyObj.obj "set")).1 = true ∧
    get_from_cache (save_to_cache (CacheManager.mk false true 3600 [] [])
      true "k" (PyObj.obj "set")).2 true "k" = PyObj.obj "set" ∧
    save_to_cache (CacheManager.mk true true 3600 [] []) true "k"
      (PyObj.obj "set")
      = (false, CacheManager.mk true true 3600 [] []) :=
  have hL := save_nonserializable_divergence
    (CacheManager.mk false true 3600 [] []) true true "k"
    (PyObj.obj "set") rfl rfl
  have hR := save_nonserializable_divergence
    (CacheManager.mk true true 3600 [] []) true true "k"
    (PyObj.obj "set") rfl rfl
  ⟨rfl, (hL.1 rfl).1, (hL.1 rfl).2.2, hR.2 rfl⟩
